/-
  Verification of the LASER symbolic EVM engine (`mythril/laser/ethereum/svm.py`).

  Shallow embedding notes:
  * SMT bit-vector / boolean terms (`mythril.laser.smt`, an external collaborator
    wrapping z3) are modelled as an inductive term algebra `BV` / `Term` with an
    evaluation semantics; `simplify` is modelled as the identity (the external
    simplifier is semantics-preserving and its output shape is not relied upon).
  * Python in-place mutation is translated to explicit state passing.  CFG nodes
    form a cyclic object graph in the source (states point to nodes, nodes list
    states); following the arena design note they are modelled as an id-keyed
    association list, states store node ids, and node `states` lists hold state uids.
  * Python object identity (used by `list.remove`) is modelled by a `uid` field on
    global states and by structural equality on terms (terms are immutable value
    objects in the source).
  * Fallible operations (IndexError / KeyError / failed `assert`) are modelled with
    `Option` / `Except`.
  * `randint` is modelled by consuming an oracle list of naturals.
-/
import Mathlib

set_option maxRecDepth 4000

namespace LaserSvm

/-! ## SMT term algebra (external collaborator `mythril.laser.smt`) -/

/-- Bit-vector terms: concrete values (`BitVecVal`), symbols, `Extract`,
`Concat`, and uninterpreted-function application (`Function(...)(arg)`). -/
inductive BV where
  | val (n : Nat) (width : Nat)
  | sym (name : String) (width : Nat)
  | extract (hi lo : Nat) (b : BV)
  | concat (a b : BV)
  | app (f : String) (arg : BV) (width : Nat)
deriving DecidableEq, Repr

/-- Boolean SMT terms.  `beq` is boolean equality between boolean terms
(`Bool.__eq__` in the source smt wrapper); `boolSym` is `BoolSym`. -/
inductive Term where
  | tt
  | ff
  | boolSym (name : String)
  | eq (a b : BV)
  | beq (a b : Term)
  | and (a b : Term)
  | or (a b : Term)
  | not (a : Term)
deriving DecidableEq, Repr

/-- Width of a bit-vector term (`.size()` in the source). -/
def BV.width : BV → Nat
  | .val _ w => w
  | .sym _ w => w
  | .extract hi lo _ => hi + 1 - lo
  | .concat a b => a.width + b.width
  | .app _ _ w => w

/-- `.symbolic` on a bit-vector: everything except a concrete value. -/
def BV.symbolic : BV → Bool
  | .val _ _ => false
  | _ => true

/-- `.value` of a bit-vector term, as used in truthiness tests
(`if key.value: continue`): the concrete value when the term is a
`BitVecVal`, otherwise `none`. -/
def BV.value : BV → Option Nat
  | .val n _ => some n
  | _ => none

/-- Python truthiness of `key.value`: a non-`None`, non-zero concrete value. -/
def BV.valueTruthy (b : BV) : Bool :=
  match b.value with
  | some n => n != 0
  | none => false

/-- A concrete structural encoding standing in for Python `hash` of a
simplified term (only used to mint flag-variable names). -/
def BV.bvHash : BV → Nat
  | .val n w => 2 + 5 * (Nat.pair n w)
  | .sym s w => 3 + 5 * (Nat.pair s.length w)
  | .extract hi lo b => 4 + 5 * (Nat.pair hi (Nat.pair lo b.bvHash))
  | .concat a b => 5 + 5 * (Nat.pair a.bvHash b.bvHash)
  | .app f a w => 6 + 5 * (Nat.pair f.length (Nat.pair a.bvHash w))

/-- Evaluation of a bit-vector term under an assignment `σ` of symbols and an
interpretation `I` of uninterpreted functions; every result is truncated to
the term's width. -/
def BV.eval (σ : String → Nat) (I : String → Nat → Nat) : BV → Nat
  | .val n w => n % 2 ^ w
  | .sym s w => σ s % 2 ^ w
  | .extract hi lo b => b.eval σ I / 2 ^ lo % 2 ^ (hi + 1 - lo)
  | .concat a b => (a.eval σ I) * 2 ^ b.width + b.eval σ I
  | .app f a w => I f (a.eval σ I) % 2 ^ w

/-- Evaluation of a boolean term under an assignment `σB` of boolean symbols,
`σ` of bit-vector symbols and an interpretation `I` of functions. -/
def Term.eval (σB : String → Bool) (σ : String → Nat) (I : String → Nat → Nat) : Term → Bool
  | .tt => true
  | .ff => false
  | .boolSym s => σB s
  | .eq a b => a.eval σ I == b.eval σ I
  | .beq a b => (a.eval σB σ I) == (b.eval σB σ I)
  | .and a b => a.eval σB σ I && b.eval σB σ I
  | .or a b => a.eval σB σ I || b.eval σB σ I
  | .not a => !(a.eval σB σ I)

/-- `simplify` — the external z3 simplifier; modelled as the identity
(semantics preserving, shape not relied upon here). -/
def simplifyT (t : Term) : Term := t

/-! ## Fixed actor roster (`ACTOR_ADDRESSES`) -/

def ACTOR0 : Nat := 0xAFFEAFFEAFFEAFFEAFFEAFFEAFFEAFFEAFFEAFFE
def ACTOR1 : Nat := 0xDEADBEEFDEADBEEFDEADBEEFDEADBEEFDEADBEEF
def ACTOR2 : Nat := 0xDEADBEEFDEADBEEFDEADBEEFDEADBEEFDEADBEEE

/-- The fixed roster of three 256-bit actor addresses. -/
def ACTOR_ADDRESSES : List BV :=
  [BV.val ACTOR0 256, BV.val ACTOR1 256, BV.val ACTOR2 256]

/-! ## Data model -/

/-- One disassembled instruction: opcode mnemonic and bytecode address. -/
structure Instr where
  opcode : String
  address : Nat
deriving DecidableEq, Repr

/-- Disassembly of a contract: instruction list plus the
address-to-function-name map. -/
structure Code where
  instructionList : List Instr
  addressToFunctionName : List (Nat × String)
deriving DecidableEq, Repr

/-- An account in the world state (only the fields the engine reads). -/
structure Account where
  address : Nat
  contractName : String
deriving DecidableEq, Repr

/-- A transaction: message call or contract creation, with its return data
(`None` = no return data produced). -/
structure Tx where
  isCreation : Bool
  returnData : Option Nat
deriving DecidableEq, Repr

/-- A state annotation; `isMutation` marks `MutationAnnotation`s. -/
structure Ann where
  isMutation : Bool
  payload : Nat
deriving DecidableEq, Repr

/-- Constraint set: ordered list of boolean terms plus the auxiliary
`weighted` list (soft weights). -/
structure Constraints where
  asList : List Term
  weighted : List Term
deriving DecidableEq, Repr

/-- The world state: accounts keyed by address, the transaction sequence,
the node attached at commit time, and the accumulated topological keccak keys. -/
structure World where
  accounts : List (Nat × Account)
  transactionSequence : List Tx
  node : Option Nat
  topoKeys : List BV
deriving DecidableEq, Repr

/-- Execution environment of a global state. -/
structure Env where
  sender : BV
  activeAccount : Account
  code : Code
  activeFunctionName : String
deriving DecidableEq, Repr

/-- Machine state: program counter, stack, constraints, gas bounds. -/
structure MState where
  pc : Nat
  stack : List BV
  constraints : Constraints
  minGasUsed : Nat
  maxGasUsed : Nat
deriving DecidableEq, Repr

/-- All fields of a global state except the transaction stack.  `uid` models
Python object identity. -/
structure GStateData where
  uid : Nat
  env : Env
  mstate : MState
  node : Nat
  world : World
  lastReturnData : Option Nat
  anns : List Ann
deriving DecidableEq, Repr

/-- A global state: per-path execution state.  The transaction stack is an
ordered list of `(transaction, return-state-or-null)` frames, bottom first. -/
inductive GState where
  | mk : GStateData → List (Tx × Option GState) → GState

def GState.data : GState → GStateData
  | .mk d _ => d

def GState.txStack : GState → List (Tx × Option GState)
  | .mk _ s => s

def GState.withData (g : GState) (d : GStateData) : GState :=
  .mk d g.txStack

def GState.withTxStack (g : GState) (s : List (Tx × Option GState)) : GState :=
  .mk g.data s

def GState.uid (g : GState) : Nat := g.data.uid

theorem GState.mk_data_txStack (g : GState) : GState.mk g.data g.txStack = g := by
  cases g
  rfl

/-- `global_state.topo_keys` (stored on the world state). -/
def GState.topoKeys (g : GState) : List BV := g.data.world.topoKeys

def GState.withMState (g : GState) (m : MState) : GState :=
  g.withData { g.data with mstate := m }

def GState.withConstraints (g : GState) (c : Constraints) : GState :=
  g.withMState { g.data.mstate with constraints := c }

def GState.withNode (g : GState) (n : Nat) : GState :=
  g.withData { g.data with node := n }

def GState.withWorld (g : GState) (w : World) : GState :=
  g.withData { g.data with world := w }

def GState.withLastReturnData (g : GState) (r : Option Nat) : GState :=
  g.withData { g.data with lastReturnData := r }

def GState.withAnns (g : GState) (a : List Ann) : GState :=
  g.withData { g.data with anns := a }

def GState.withEnv (g : GState) (e : Env) : GState :=
  g.withData { g.data with env := e }

/-- `global_state.current_transaction`: the transaction of the top stack frame. -/
def GState.currentTransaction (g : GState) : Option Tx :=
  (g.txStack.getLast?).map Prod.fst

/-! ## CFG model -/

/-- Jump type of a CFG edge. -/
inductive JumpType where
  | UNCONDITIONAL
  | CONDITIONAL
  | CALL
  | RETURN
deriving DecidableEq, Repr

/-- Node flag bits.  Modelled from the spec: `NodeFlags` is a bitmask with
`FUNC_ENTRY` and `CALL_RETURN` bits (the `cfg` module is an external file). -/
def FUNC_ENTRY : Nat := 1
def CALL_RETURN : Nat := 2

/-- A CFG node.  `states` holds the uids of the global states that passed
through the node. -/
structure Node where
  contractName : String
  functionName : String
  flags : Nat
  constraints : Constraints
  states : List Nat
deriving DecidableEq, Repr

/-- A CFG edge between node uids with jump type and optional guard. -/
structure Edge where
  src : Nat
  dst : Nat
  jtype : JumpType
  condition : Option Term
deriving DecidableEq, Repr

/-! ## Association-list helpers (Python dict operations) -/

/-- Dict lookup. -/
def alistGet {β : Type} [DecidableEq α] (m : List (α × β)) (k : α) : Option β :=
  (m.find? (fun p => p.1 = k)).map Prod.snd

/-- Dict assignment `m[k] = v` (replaces an existing binding, else appends). -/
def alistSet {β : Type} [DecidableEq α] (m : List (α × β)) (k : α) (v : β) :
    List (α × β) :=
  if (m.find? (fun p => p.1 = k)).isSome then
    m.map (fun p => if p.1 = k then (k, v) else p)
  else
    m ++ [(k, v)]

/-- Update the value at `k` with `f` when the key is present (no-op otherwise). -/
def alistModify {β : Type} [DecidableEq α] (m : List (α × β)) (k : α) (f : β → β) :
    List (α × β) :=
  m.map (fun p => if p.1 = k then (p.1, f p.2) else p)

/-! ## Per-opcode post hooks (`LaserEVM._execute_post_hook`) -/

/-- One pass of `for global_state in global_states: try: hook(global_state)
except PluginSkipState: global_states.remove(global_state)`, modelling
CPython's list-iterator semantics exactly: the iterator's index advances
after each yield, and `list.remove` deletes the first element equal (by
identity, here `beq`) to the yielded one, shifting later elements left —
so the element following a removed one is never yielded. -/
def postHookPass (beq : α → α → Bool) (veto : α → Bool) (l : List α) (i : Nat) :
    List α :=
  if h : i < l.length then
    let x := l.get ⟨i, h⟩
    if veto x then postHookPass beq veto (l.eraseP (fun y => beq x y)) (i + 1)
    else postHookPass beq veto l (i + 1)
  else l
termination_by l.length - i
decreasing_by
  · have hle : (l.eraseP (fun y => beq (l.get ⟨i, h⟩) y)).length ≤ l.length :=
      (List.eraseP_sublist l).length_le
    omega
  · omega

/-- `LaserEVM._execute_post_hook`: every registered hook, in registration
order, makes one `postHookPass` over the successor list.  An opcode that is
not in the `post_hooks` keys corresponds to an empty hook list (the early
return). -/
def executePostHook (beq : α → α → Bool) (hooks : List (α → Bool)) (l : List α) :
    List α :=
  hooks.foldl (fun acc h => postHookPass beq h acc 0) l

/-- Identity comparison for global states (Python object identity). -/
def gsBeq (a b : GState) : Bool := a.uid == b.uid

/-! ## Open-state commit (`LaserEVM._add_world_state`) -/

/-- The `add_world_state` hook loop: invoke hooks in registration order; a
hook raising `PluginSkipWorldState` (`veto` true) returns immediately,
suppressing the append.  Result: (number of hooks invoked, vetoed?). -/
def awsRun (hooks : List (GState → Bool)) (g : GState) : Nat × Bool :=
  match hooks with
  | [] => (0, false)
  | h :: t =>
    if h g then (1, true)
    else
      let r := awsRun t g
      (r.1 + 1, r.2)

/-- `LaserEVM._add_world_state`: pass the state through the
`add_world_state` hooks; if no hook vetoes, append its world state to
`open_states`. -/
def addWorldState (hooks : List (GState → Bool)) (openStates : List World)
    (g : GState) : List World :=
  if (awsRun hooks g).2 then openStates else openStates ++ [g.data.world]

/-! ## Keccak function manager (external module `keccak_function_manager`) -/

/-- The process-wide keccak manager, modelled as explicit state.  Its
`find_keccak` computation is external and supplied as a parameter `findK`
where needed. -/
structure KM where
  keccakParent : List (BV × Option BV)
  getFunction : List (Nat × (String × String))
  valuesForSize : List (Nat × List BV)
  valueInverse : List (BV × BV)
  flagConditions : List (BV × (Term × Term))
  deleteConstraints : List Term
deriving DecidableEq, Repr

/-- `keccak_function_manager.keccak_parent[key]`.  Modelled from the spec:
a key with no recorded parent is an independent key (null parent). -/
def KM.parentOf (km : KM) (key : BV) : Option BV :=
  match alistGet km.keccakParent key with
  | some p => p
  | none => none

/-- `LaserEVM.delete_constraints`: remove the first occurrence of each member
of the manager's delete set from a constraint list; removal of an absent
constraint silently no-ops. -/
def deleteConstraintsFrom (ds : List Term) (cs : List Term) : List Term :=
  ds.foldl (fun acc c => acc.erase c) cs

/-- The deleted-constraint fold at the end of `concretize_keccak`: remove
each member of `ds` found in `cs` (first occurrence) and conjoin it onto the
accumulator as `And(constraint, acc)`; the flag records whether anything was
removed (`deleted_constraints is True` test). -/
def removeCollect (ds : List Term) (cs : List Term) : List Term × Term × Bool :=
  ds.foldl
    (fun acc c =>
      match acc with
      | (cur, d, flag) =>
        if c ∈ cur then (cur.erase c, Term.and c d, true) else (cur, d, flag))
    (cs, Term.tt, false)

/-! ## Keccak concretisation (`LaserEVM.concretize_keccak`) -/

/-- `simplify` on a bit-vector term (external simplifier, identity model). -/
def simplifyBV (b : BV) : BV := b

/-- Draw from the random oracle (`randint`). -/
def draw (rng : List Nat) : Nat × List Nat := (rng.headD 0, rng.tail)

/-- `stored_vals.setdefault(key, {})[actor] = v`. -/
def storedSet (m : List (BV × List (BV × BV))) (key actor v : BV) :
    List (BV × List (BV × BV)) :=
  match alistGet m key with
  | some inner => alistSet m key (alistSet inner actor v)
  | none => alistSet m key [(actor, v)]

/-- `keccak_function_manager.get_function[160]` with the `KeyError` handler
that creates the `(function, inverse)` pair and the `values_for_size[160]`
bucket. -/
def getFunc160 (km : KM) : (String × String) × KM :=
  match alistGet km.getFunction 160 with
  | some fi => (fi, km)
  | none =>
    let fi := ("keccak256_160", "keccak256_160-1")
    (fi, { km with getFunction := alistSet km.getFunction 160 fi,
                   valuesForSize := alistSet km.valuesForSize 160 [] })

/-- State threaded through the independent-key actor loop. -/
structure IndepSt where
  stored : List (BV × List (BV × BV))
  varCond : Term
  hashCond : Term
  sigTopo : List BV
  km : KM
  rng : List Nat

/-- One actor iteration of the independent-key branch
(`keccak_parent[key] is None`). -/
def indepActorStep (findK : BV → BV) (key : BV) (st : IndepSt)
    (t : Term × BV) : IndepSt × (Term × BV) :=
  if key.width = 256 then
    let r := draw st.rng
    let concreteInput := BV.val (r.1 % 2 ^ 160) 160
    let fi := getFunc160 st.km
    let func := fi.1.1
    let inverse := fi.1.2
    let concreteVal := findK concreteInput
    let km2 := { fi.2 with
      valueInverse := alistSet fi.2.valueInverse concreteVal key,
      valuesForSize :=
        alistModify fi.2.valuesForSize 160 (fun l => l ++ [concreteVal]) }
    ({ stored := storedSet st.stored key t.2 concreteVal,
       varCond := Term.or st.varCond (Term.eq key concreteVal),
       hashCond := Term.and (Term.and st.hashCond
           (Term.eq (BV.app func concreteInput 256) concreteVal))
         (Term.eq (BV.app inverse concreteVal 160) concreteInput),
       sigTopo := st.sigTopo ++ [concreteVal], km := km2, rng := r.2 },
     (Term.and t.1 (Term.eq key concreteVal), t.2))
  else
    let r := draw st.rng
    let concreteVal := BV.val (r.1 % 2 ^ key.width) key.width
    ({ st with stored := storedSet st.stored key t.2 concreteVal,
               varCond := Term.or st.varCond (Term.eq key concreteVal),
               rng := r.2 },
     (Term.and t.1 (Term.eq key concreteVal), t.2))

/-- State threaded through the derived-key actor loop.  `p1`/`p2` model the
`parent1`/`parent2` locals, which the source mutates in place across actor
iterations in the 512-bit branch. -/
structure DerivSt where
  stored : List (BV × List (BV × BV))
  varCond : Term
  p1 : BV
  p2 : BV

/-- One actor iteration of the derived-key branch.  `none` models the
uncaught `KeyError` of `stored_vals[parent1]` / `stored_vals[parent2]` in the
512-bit path; in the other path the `KeyError` is caught (`continue`),
skipping the actor. -/
def derivActorStep (findK : BV → BV) (key parent : BV) (st : DerivSt)
    (t : Term × BV) : Option (DerivSt × (Term × BV)) :=
  if parent.width = 512 then
    let o1 : Option BV :=
      if st.p1.symbolic then (alistGet st.stored st.p1).bind (fun m => alistGet m t.2)
      else some st.p1
    let o2 : Option BV :=
      if st.p2.symbolic then (alistGet st.stored st.p2).bind (fun m => alistGet m t.2)
      else some st.p2
    match o1, o2 with
    | some q1, some q2 =>
      let keccakVal := findK (BV.concat q1 q2)
      some ({ stored := storedSet st.stored key t.2 keccakVal,
              varCond := Term.or st.varCond (Term.eq key keccakVal),
              p1 := q1, p2 := q2 },
            (Term.and t.1 (Term.eq key keccakVal), t.2))
    | _, _ => none
  else
    match (alistGet st.stored parent).bind (fun m => alistGet m t.2) with
    | some concreteParent =>
      let keccakVal := findK concreteParent
      some ({ st with stored := storedSet st.stored key t.2 keccakVal,
                      varCond := Term.or st.varCond (Term.eq key keccakVal) },
            (Term.and t.1 (Term.eq key keccakVal), t.2))
    | none => some (st, t)

/-- The flag-rewriting step closing each key iteration
(`flag_conditions[simplify(key)]` present or `KeyError`). -/
def flagRewrite (km : KM) (key : BV) (flagVar varCond hashCond : Term) : Term :=
  match alistGet km.flagConditions (simplifyBV key) with
  | some fc =>
    Term.and (Term.beq (Term.or varCond fc.2) flagVar)
             (Term.beq fc.1 (Term.not flagVar))
  | none =>
    Term.and (Term.or (Term.and flagVar varCond)
                      (Term.not (Term.and flagVar varCond)))
             hashCond

/-- Accumulator for the main key loop of `concretize_keccak`. -/
structure CKAcc where
  tuples : List (Term × BV)
  stored : List (BV × List (BV × BV))
  varConds : Term
  hashCond : Term
  flagWeights : List Term
  sigTopo : List BV
  km : KM
  rng : List Nat

/-- One key iteration of `concretize_keccak` (`continue` on a key whose
`.value` is truthy). -/
def perKey (findK : BV → BV) (acc : CKAcc) (key : BV) : Option CKAcc :=
  if key.valueTruthy then some acc
  else
    let flagVar := Term.boolSym (toString key.bvHash ++ "_flag")
    match acc.km.parentOf key with
    | none =>
      let st0 : IndepSt := { stored := acc.stored, varCond := Term.ff,
                             hashCond := acc.hashCond, sigTopo := acc.sigTopo,
                             km := acc.km, rng := acc.rng }
      let res := acc.tuples.foldl
        (fun (p : IndepSt × List (Term × BV)) t =>
          let r := indepActorStep findK key p.1 t
          (r.1, p.2 ++ [r.2]))
        (st0, [])
      let vc := flagRewrite res.1.km key flagVar res.1.varCond res.1.hashCond
      some { tuples := res.2, stored := res.1.stored,
             varConds := Term.and acc.varConds vc,
             hashCond := res.1.hashCond,
             flagWeights := acc.flagWeights ++ [flagVar],
             sigTopo := res.1.sigTopo, km := res.1.km, rng := res.1.rng }
    | some parent =>
      let p0 : BV × BV :=
        if parent.width = 512 then
          (BV.extract 511 256 parent, BV.extract 255 0 parent)
        else (parent, parent)
      let st0 : DerivSt := { stored := acc.stored, varCond := Term.ff,
                             p1 := p0.1, p2 := p0.2 }
      let folded : Option (DerivSt × List (Term × BV)) :=
        acc.tuples.foldlM
          (fun (p : DerivSt × List (Term × BV)) t => do
            let r ← derivActorStep findK key parent p.1 t
            pure (r.1, p.2 ++ [r.2]))
          (st0, [])
      match folded with
      | none => none
      | some (st, tuples') =>
        let vc := flagRewrite acc.km key flagVar st.varCond acc.hashCond
        some { tuples := tuples', stored := st.stored,
               varConds := Term.and acc.varConds vc,
               hashCond := acc.hashCond,
               flagWeights := acc.flagWeights ++ [flagVar],
               sigTopo := acc.sigTopo, km := acc.km, rng := acc.rng }

/-- `LaserEVM.concretize_keccak(global_state, gs)`.  Returns
`(C, D, V, W, km', rng', global_state', gs')`: the simplified guard
disjunction, the deleted-constraint conjunction, the variable/hash condition,
the flag-weight list, the updated keccak manager and random oracle, the
current state with the delete set removed from its constraints, and the
returning state with its topological keys extended.  `none` models an
uncaught `KeyError`. -/
def concretizeKeccak (findK : BV → BV) (km : KM) (rng : List Nat)
    (g gsig : GState) :
    Option (Term × Term × Term × List Term × KM × List Nat × GState × GState) := do
  let sender := g.data.env.sender
  let tuples0 := ACTOR_ADDRESSES.map (fun actor => (Term.eq sender actor, actor))
  let acc0 : CKAcc := { tuples := tuples0, stored := [], varConds := Term.tt,
                        hashCond := Term.tt, flagWeights := [],
                        sigTopo := gsig.topoKeys, km := km, rng := rng }
  let acc ← g.topoKeys.foldlM (perKey findK) acc0
  let newCondition := acc.tuples.foldl (fun nc t => Term.or t.1 nc) Term.ff
  let rc := removeCollect acc.km.deleteConstraints g.data.mstate.constraints.asList
  let deleted := if rc.2.2 then rc.2.1 else Term.ff
  let g' := g.withData { g.data with
    mstate := { g.data.mstate with
      constraints := { g.data.mstate.constraints with asList := rc.1 } } }
  let gsig' := gsig.withData { gsig.data with
    world := { gsig.data.world with topoKeys := acc.sigTopo } }
  pure (simplifyT newCondition, deleted, Term.and acc.varConds acc.hashCond,
        acc.flagWeights, acc.km, acc.rng, g', gsig')

/-! ## `LaserEVM._end_message_call` -/

/-- The state preparation part of `_end_message_call`, up to (excluding) the
post-call instruction evaluation: append the ending state's constraints onto
the return state, fetch the opcode at the return state's PC (`IndexError` ⇒
`none`), set `last_return_data`, and — when not reverting — install a copy of
the callee's world state, rebind the active account to its address-keyed
entry (`KeyError` ⇒ `none`), and for a contract-creation callee add the
callee's gas bounds onto the return state's. -/
def emcPrepare (ret g : GState) (revertChanges : Bool)
    (returnData : Option Nat) : Option (String × GState) := do
  let ret1 := ret.withConstraints
    { ret.data.mstate.constraints with
      asList := ret.data.mstate.constraints.asList ++
        g.data.mstate.constraints.asList }
  let instr ← ret1.data.env.code.instructionList.get? ret1.data.mstate.pc
  let opCode := instr.opcode
  let ret2 := ret1.withLastReturnData returnData
  if revertChanges then
    pure (opCode, ret2)
  else do
    let ret3 := ret2.withWorld g.data.world
    let acct ← alistGet g.data.world.accounts ret3.data.env.activeAccount.address
    let ret4 := ret3.withEnv { ret3.data.env with activeAccount := acct }
    let tx ← g.currentTransaction
    let ret5 :=
      if tx.isCreation then
        ret4.withMState { ret4.data.mstate with
          minGasUsed := ret4.data.mstate.minGasUsed + g.data.mstate.minGasUsed,
          maxGasUsed := ret4.data.mstate.maxGasUsed + g.data.mstate.maxGasUsed }
      else ret4
    pure (opCode, ret5)

/-- `LaserEVM._end_message_call`: prepare the return state, evaluate the
transaction-initiating instruction in post-call mode (`evalPost`, the
external instruction evaluator), and force every produced successor's node
to the ending state's node. -/
def endMessageCall (evalPost : String → GState → List GState)
    (ret g : GState) (revertChanges : Bool) (returnData : Option Nat) :
    Option (List GState) := do
  let pr ← emcPrepare ret g revertChanges returnData
  pure ((evalPost pr.1 pr.2).map (fun s => s.withNode g.data.node))

/-! ## `LaserEVM.execute_state` -/

/-- Mutable engine state touched by one instruction step.  `heap` is the
uid-keyed store of all `Node` objects (states refer to nodes by uid, per the
arena design note); `nodesDict` lists the uids recorded in the engine's
`self.nodes` dictionary (written only when `requires_statespace`), whose
values live in `heap`. -/
structure EngineState where
  openStates : List World
  heap : List (Nat × Node)
  nodesDict : List Nat
  edges : List Edge
  requiresStatespace : Bool
  nextUid : Nat
  km : KM
  rng : List Nat

/-- Hook registry.  Hooks are external plugin callables; they are modelled by
their veto behaviour (`true` = raises the corresponding skip signal). -/
structure EngineCfg where
  preHooks : String → List (GState → Bool)
  postHooks : String → List (GState → Bool)
  awsHooks : List (GState → Bool)

/-- Outcome of the external instruction evaluator
(`Instruction(op_code, ...).evaluate(global_state)`). -/
inductive EvalOutcome where
  | ok (succs : List GState)
  | vmException
  | startSignal (tx : Tx) (initState : GState) (sigState : GState)
  | endSignal (sigState : GState) (revert : Bool)

/-- Observable phase events of one `execute_state` step, in execution order
(used to state hook-ordering properties). -/
inductive TraceEv where
  | postHookPhase (op : String) (uids : List Nat)
  | emcPhase (retUid : Nat) (revertChanges : Bool) (returnDataIsNone : Bool)
  | addWorldPhase (uid : Nat)
deriving DecidableEq, Repr

/-- The `VmException` handler of `execute_state`: pop the top transaction
frame; a top-level frame ends the path with no commit; otherwise run the
post hooks on the (popped) failing state, then `_end_message_call` with
`revert_changes=True, return_data=None`. -/
def handleVmException (cfg : EngineCfg)
    (evalPost : String → GState → List GState) (es : EngineState)
    (g : GState) (opCode : String) :
    Option (List GState × Option String × EngineState × List TraceEv) := do
  let frame ← g.txStack.getLast?
  let g' := g.withTxStack g.txStack.dropLast
  match frame.2 with
  | none =>
    pure ([], some opCode, es, [TraceEv.postHookPhase opCode []])
  | some retState =>
    let succs ← endMessageCall evalPost retState g' true none
    let succs' := executePostHook gsBeq (cfg.postHooks opCode) succs
    pure (succs', some opCode, es,
      [TraceEv.postHookPhase opCode [g'.uid],
       TraceEv.emcPhase retState.uid true true,
       TraceEv.postHookPhase opCode (succs.map GState.uid)])

/-- The `TransactionStartSignal` handler of `execute_state`: build one new
global state from the signal transaction's `initial_global_state()`
(`initState`), give it the caller's transaction stack plus an appended
`(new_tx, caller)` frame, the caller's node, and the signal state's
constraints; return it directly (no post hooks). -/
def handleStartSignal (g : GState) (opCode : String) (tx : Tx)
    (initState sigState : GState) (es : EngineState) :
    List GState × Option String × EngineState × List TraceEv :=
  let newState :=
    ((initState.withTxStack (g.txStack ++ [(tx, some g)])).withNode
        g.data.node).withConstraints sigState.data.mstate.constraints
  ([newState], some opCode, es, [])

/-- The `TransactionEndSignal` handler of `execute_state` (§ top-level end
and nested end). -/
def handleEndSignal (cfg : EngineCfg) (findK : BV → BV)
    (evalPost : String → GState → List GState) (es : EngineState)
    (g : GState) (opCode : String) (sigState : GState) (revert : Bool) :
    Option (List GState × Option String × EngineState × List TraceEv) := do
  let frame ← sigState.txStack.getLast?
  let tx := frame.1
  match frame.2 with
  | none =>
    if (!tx.isCreation || tx.returnData.isSome) && !revert then do
      let r ← concretizeKeccak findK es.km es.rng g sigState
      match r with
      | (c, d, v, w, km', rng', g', sig') =>
        -- check_potential_issues(global_state): external detection collaborator
        let sig2 := sig'.withWorld { sig'.data.world with node := some g'.data.node }
        let heap1 := alistModify es.heap g'.data.node
          (fun n => { n with constraints := g'.data.mstate.constraints })
        let heap2 := alistModify heap1 sig2.data.node
          (fun n => { n with constraints := { n.constraints with
            asList := deleteConstraintsFrom km'.deleteConstraints
              n.constraints.asList } })
        let heap3 := alistModify heap2 g'.data.node
          (fun n => { n with constraints := { n.constraints with
            asList := n.constraints.asList ++ [Term.and (Term.or c d) v] } })
        let heap4 := alistModify heap3 g'.data.node
          (fun n => { n with constraints := { n.constraints with
            weighted := n.constraints.weighted ++ w } })
        let es' := { es with
          km := km', rng := rng', heap := heap4
          openStates := addWorldState cfg.awsHooks es.openStates sig2 }
        pure ([], some opCode, es',
          [TraceEv.addWorldPhase sig2.uid, TraceEv.postHookPhase opCode []])
    else
      pure ([], some opCode, es, [TraceEv.postHookPhase opCode []])
  | some retState => do
    let r ← concretizeKeccak findK es.km es.rng g sigState
    match r with
    | (c, d, v, w, km', rng', g', _sig') =>
      let g2 := g'.withConstraints
        { asList := g'.data.mstate.constraints.asList ++
            [Term.and (Term.or c d) v],
          weighted := g'.data.mstate.constraints.weighted ++ w }
      let ret1 := retState.withConstraints
        { retState.data.mstate.constraints with
          asList := deleteConstraintsFrom km'.deleteConstraints
            retState.data.mstate.constraints.asList }
      let instr ← ret1.data.env.code.instructionList.get? ret1.data.mstate.pc
      let ret2 :=
        if instr.opcode = "DELEGATECALL" ∨ instr.opcode = "CALLCODE" then
          ret1.withAnns (ret1.data.anns ++ g2.data.anns.filter (·.isMutation))
        else ret1
      let succs ← endMessageCall evalPost ret2 g2 (false || revert) tx.returnData
      let succs' := executePostHook gsBeq (cfg.postHooks opCode) succs
      pure (succs', some opCode, { es with km := km', rng := rng' },
        [TraceEv.postHookPhase opCode [sigState.uid],
         TraceEv.emcPhase ret2.uid (false || revert) tx.returnData.isNone,
         TraceEv.postHookPhase opCode (succs.map GState.uid)])

/-- `LaserEVM.execute_state`: one instruction step.  The `execute_state`
lifecycle hooks are external observers (no modelled effect).  `none` models
an unhandled exception (an internal `IndexError`/`KeyError`) aborting the
engine. -/
def executeState (cfg : EngineCfg) (findK : BV → BV)
    (evalr : GState → EvalOutcome) (evalPost : String → GState → List GState)
    (es : EngineState) (g : GState) :
    Option (List GState × Option String × EngineState × List TraceEv) :=
  match g.data.env.code.instructionList.get? g.data.mstate.pc with
  | none =>
    -- IndexError: PC past end of code — commit, return ([], None)
    some ([], none,
      { es with openStates := addWorldState cfg.awsHooks es.openStates g },
      [TraceEv.addWorldPhase g.uid])
  | some instr =>
    let opCode := instr.opcode
    if (cfg.preHooks opCode).any (fun hk => hk g) then
      -- a pre hook raised PluginSkipState — same commit, return ([], None)
      some ([], none,
        { es with openStates := addWorldState cfg.awsHooks es.openStates g },
        [TraceEv.addWorldPhase g.uid])
    else
      match evalr g with
      | .ok succs =>
        some (executePostHook gsBeq (cfg.postHooks opCode) succs, some opCode,
          es, [TraceEv.postHookPhase opCode (succs.map GState.uid)])
      | .vmException => handleVmException cfg evalPost es g opCode
      | .startSignal tx initState sigState =>
        some (handleStartSignal g opCode tx initState sigState es)
      | .endSignal sigState revert =>
        handleEndSignal cfg findK evalPost es g opCode sigState revert

/-! ## `LaserEVM.manage_cfg` and `_new_node_state` -/

/-- Character-list infix containment (the `"retval" in str(...)` test). -/
def listHasSub (pat : List Char) : List Char → Bool
  | [] => pat.isEmpty
  | c :: t => pat.isPrefixOf (c :: t) || listHasSub pat t

/-- A rendering of bit-vector terms standing in for `str()` of the external
smt wrapper (only ever inspected for the substring `retval`, which can occur
only through symbol names). -/
def BV.render : BV → String
  | .val n _ => toString n
  | .sym s _ => s
  | .extract hi lo b =>
    "Extract(" ++ toString hi ++ "," ++ toString lo ++ "," ++ b.render ++ ")"
  | .concat a b => "Concat(" ++ a.render ++ "," ++ b.render ++ ")"
  | .app f a _ => f ++ "(" ++ a.render ++ ")"

/-- `LaserEVM._new_node_state`: mint a new node for `state`, reattach the
state to it, record node and edge when statespace recording is enabled, set
the node flags, and update the environment's active function name from the
disassembly.  `Except.error` models an uncaught `IndexError`. -/
def newNodeState (es : EngineState) (state : GState) (edgeType : JumpType)
    (condition : Option Term) : Except String (EngineState × GState) :=
  let uid := es.nextUid
  let oldNode := state.data.node
  let state1 := state.withNode uid
  let flags1 : Nat :=
    match edgeType with
    | .RETURN => Nat.lor 0 CALL_RETURN
    | .CALL =>
      -- stack-underflow (modelled from the spec as the empty stack) ⇒ FUNC_ENTRY
      match state1.data.mstate.stack.getLast? with
      | some top =>
        if listHasSub "retval".toList top.render.toList then Nat.lor 0 CALL_RETURN
        else Nat.lor 0 FUNC_ENTRY
      | none => Nat.lor 0 FUNC_ENTRY
    | _ => 0
  match state1.data.env.code.instructionList.get? state1.data.mstate.pc,
      state1.data.world.transactionSequence.getLast? with
  | some instr, some lastTx =>
    let address := instr.address
    let env0 := state1.data.env
    let named : Env × Nat :=
      if lastTx.isCreation then
        ({ env0 with activeFunctionName := "constructor" }, flags1)
      else
        match alistGet env0.code.addressToFunctionName address with
        | some fn =>
          ({ env0 with activeFunctionName := fn }, Nat.lor flags1 FUNC_ENTRY)
        | none =>
          if address = 0 then
            ({ env0 with activeFunctionName := "fallback" }, flags1)
          else (env0, flags1)
    let state2 := state1.withEnv named.1
    let node1 : Node :=
      { contractName := state1.data.env.activeAccount.contractName
        functionName := named.1.activeFunctionName
        flags := named.2
        constraints := state1.data.mstate.constraints
        states := [] }
    let es1 := { es with heap := alistSet es.heap uid node1, nextUid := uid + 1 }
    let es2 :=
      if es1.requiresStatespace then
        { es1 with
          nodesDict := es1.nodesDict ++ [uid]
          edges := es1.edges ++
            [{ src := oldNode, dst := uid, jtype := edgeType,
               condition := condition }] }
      else es1
    .ok (es2, state2)
  | _, _ => .error "IndexError"

/-- Sequentially apply a node-minting step to each successor, keeping the
successor order (the `for state in new_states` loops of `manage_cfg`). -/
def foldNodes (es : EngineState) (states : List GState)
    (mk : EngineState → GState → Except String (EngineState × GState)) :
    Except String (EngineState × List GState) :=
  match states with
  | [] => .ok (es, [])
  | s :: rest => do
    let r ← mk es s
    let rr ← foldNodes r.1 rest mk
    pure (rr.1, r.2 :: rr.2)

/-- The per-successor CONDITIONAL minting used for JUMPI and forked
SLOAD/SSTORE: guard is the last element of the successor's constraint list
(`constraints[-1]`; `IndexError` on an empty list). -/
def mintConditional (es : EngineState) (s : GState) :
    Except String (EngineState × GState) := do
  match s.data.mstate.constraints.asList.getLast? with
  | some c => newNodeState es s JumpType.CONDITIONAL (some c)
  | none => Except.error "IndexError"

/-- One step of the closing loop of `manage_cfg`
(`state.node.states.append(state)`). -/
def appendStateToNode (e : EngineState) (s : GState) : EngineState :=
  { e with heap := (alistModify e.heap s.data.node
      (fun n => { n with states := n.states ++ [s.uid] })) }

/-- The decision table of `manage_cfg` (everything before the closing
append loop).  `Except.error "assert"` models a failed assertion. -/
def manageCfgBranch (es : EngineState) (opcode : Option String)
    (newStates : List GState) : Except String (EngineState × List GState) :=
  if opcode = some "JUMP" then
    if newStates.length ≤ 1 then
      foldNodes es newStates
        (fun e s => newNodeState e s JumpType.UNCONDITIONAL none)
    else Except.error "assert"
  else if opcode = some "JUMPI" then
    if newStates.length ≤ 2 then foldNodes es newStates mintConditional
    else Except.error "assert"
  else if (opcode = some "SLOAD" ∨ opcode = some "SSTORE") ∧
      newStates.length > 1 then
    foldNodes es newStates mintConditional
  else if opcode = some "RETURN" then
    foldNodes es newStates (fun e s => newNodeState e s JumpType.RETURN none)
  else
    Except.ok (es, newStates)

/-- `LaserEVM.manage_cfg(opcode, new_states)`: the decision table on the
step's opcode, then append every successor to its node's `states` list. -/
def manageCfg (es : EngineState) (opcode : Option String)
    (newStates : List GState) : Except String (EngineState × List GState) := do
  let br ← manageCfgBranch es opcode newStates
  pure (br.2.foldl appendStateToNode br.1, br.2)

/-! ## `LaserEVM.exec` (worklist loop) -/

/-- Per-iteration outcome of `execute_state`, as seen by `exec`
(`NotImplementedError` is caught there). -/
inductive StepEval (α : Type) where
  | notImplemented
  | ok (succs : List α)

/-- One strategy yield: the yielded state, whether the applicable deadline
(`create_timeout` / `execution_timeout`) has expired at this iteration, and
the evaluation outcome. -/
structure IterIn (α : Type) where
  state : α
  deadlineHit : Bool
  outcome : StepEval α

/-- Observable accumulator of an `exec` run: `final_states`, the log of
states appended to the worklist, the per-iteration successor lists passed to
`manage_cfg`, and `total_states`. -/
structure ExecAcc (α : Type) where
  finalStates : List α
  workAppended : List α
  cfgCalls : List (List α)
  totalStates : Nat

/-- `LaserEVM.exec`: iterate the strategy; on deadline expiry return
`final_states + [global_state]` when `track_gas` else `None`; on
`NotImplementedError` drop the state and continue; otherwise filter
unsatisfiable successors (`is_possible`, the external solver probe, given as
`sat`), pass the survivors to CFG management, extend the worklist when
non-empty (else accumulate the state under `track_gas`), and add the
survivor count to `total_states`. -/
def execLoop (sat : α → Bool) (trackGas : Bool) :
    List (IterIn α) → ExecAcc α → Option (List α) × ExecAcc α
  | [], acc => (if trackGas then some acc.finalStates else none, acc)
  | it :: rest, acc =>
    if it.deadlineHit then
      (if trackGas then some (acc.finalStates ++ [it.state]) else none, acc)
    else
      match it.outcome with
      | .notImplemented => execLoop sat trackGas rest acc
      | .ok succs =>
        let ns := succs.filter sat
        execLoop sat trackGas rest
          { finalStates :=
              if ns.isEmpty && trackGas then acc.finalStates ++ [it.state]
              else acc.finalStates
            workAppended := acc.workAppended ++ ns
            cfgCalls := acc.cfgCalls ++ [ns]
            totalStates := acc.totalStates + ns.length }

/-! ## Basic lemmas -/

@[simp] theorem GState.data_mk (d : GStateData) (ts : List (Tx × Option GState)) :
    (GState.mk d ts).data = d := rfl

@[simp] theorem GState.txStack_mk (d : GStateData) (ts : List (Tx × Option GState)) :
    (GState.mk d ts).txStack = ts := rfl

@[simp] theorem GState.data_withTxStack (g : GState)
    (s : List (Tx × Option GState)) : (g.withTxStack s).data = g.data := rfl

@[simp] theorem GState.txStack_withData (g : GState) (d : GStateData) :
    (g.withData d).txStack = g.txStack := rfl

theorem awsRun_no_veto (hooks : List (GState → Bool)) (g : GState)
    (h : ∀ hk ∈ hooks, hk g = false) : awsRun hooks g = (hooks.length, false) := by
  induction hooks with
  | nil => rfl
  | cons hd tl ih =>
    have hhd := h hd (List.mem_cons_self hd tl)
    simp [awsRun, hhd, ih (fun hk hm => h hk (List.mem_cons_of_mem hd hm))]

theorem awsRun_veto (hooks : List (GState → Bool)) (g : GState)
    (h : ∃ hk ∈ hooks, hk g = true) : (awsRun hooks g).2 = true := by
  induction hooks with
  | nil => simp at h
  | cons hd tl ih =>
    by_cases hhd : hd g
    · simp [awsRun, hhd]
    · obtain ⟨hk, hm, hv⟩ := h
      rcases List.mem_cons.mp hm with he | htl
      · subst he; exact absurd hv hhd
      · simp only [awsRun, if_neg hhd]
        exact ih ⟨hk, htl, hv⟩

theorem alistGet_alistModify_self {β : Type} [DecidableEq α]
    (m : List (α × β)) (k : α) (f : β → β) :
    alistGet (alistModify m k f) k = (alistGet m k).map f := by
  induction m with
  | nil => rfl
  | cons hd tl ih =>
    simp only [alistModify, List.map_cons] at *
    by_cases hk : hd.1 = k
    · simp [alistGet, List.find?_cons, hk]
    · have h1 : (decide (hd.1 = k)) = false := by simp [hk]
      simp only [alistGet, List.find?_cons, if_neg hk, h1] at *
      exact ih

theorem alistGet_alistModify_ne {β : Type} [DecidableEq α]
    (m : List (α × β)) (k k' : α) (f : β → β) (h : k' ≠ k) :
    alistGet (alistModify m k f) k' = alistGet m k' := by
  induction m with
  | nil => rfl
  | cons hd tl ih =>
    simp only [alistModify, List.map_cons] at *
    by_cases hk : hd.1 = k
    · have hne : (decide (hd.1 = k')) = false := by
        simp only [decide_eq_false_iff_not]
        rw [hk]; exact fun he => h he.symm
      have hkk : (decide (k = k')) = false := by
        simp only [decide_eq_false_iff_not]
        exact fun he => h he.symm
      simp only [alistGet, List.find?_cons, if_pos hk, hkk, hne] at *
      exact ih
    · have h2 : (if hd.1 = k then (hd.1, f hd.2) else hd) = hd := if_neg hk
      rw [h2]
      by_cases hk' : hd.1 = k'
      · have h1 : (decide (hd.1 = k')) = true := by simp [hk']
        simp [alistGet, List.find?_cons, h1]
      · have h1 : (decide (hd.1 = k')) = false := by simp [hk']
        simp only [alistGet, List.find?_cons, h1] at *
        exact ih

/-! ## Claim C8 -/

/-- C8: when the program counter is past the end of the code, or a
per-opcode pre hook raises `SkipState`, `execute_state` commits the state by
passing it through every `add_world_state` hook (in registration order:
`awsRun` traverses the registered list front to back) and then appending its
world state to `open_states` — unless some hook raises `SkipWorldState`, in
which case `open_states` is left unchanged; in either trigger case the step
returns an empty successor list and no opcode. -/
theorem c8_overflow_or_pre_veto_commits
    (cfg : EngineCfg) (findK : BV → BV) (evalr : GState → EvalOutcome)
    (evalPost : String → GState → List GState) (es : EngineState) (g : GState)
    (htrig : g.data.env.code.instructionList[g.data.mstate.pc]? = none ∨
      (∃ instr, g.data.env.code.instructionList[g.data.mstate.pc]? =
          some instr ∧
        (cfg.preHooks instr.opcode).any (fun hk => hk g) = true)) :
    executeState cfg findK evalr evalPost es g =
      some ([], none,
        { es with openStates := addWorldState cfg.awsHooks es.openStates g },
        [TraceEv.addWorldPhase g.uid]) ∧
    ((∀ hk ∈ cfg.awsHooks, hk g = false) →
      awsRun cfg.awsHooks g = (cfg.awsHooks.length, false) ∧
      addWorldState cfg.awsHooks es.openStates g =
        es.openStates ++ [g.data.world]) ∧
    ((∃ hk ∈ cfg.awsHooks, hk g = true) →
      addWorldState cfg.awsHooks es.openStates g = es.openStates) := by
  refine ⟨?_, ?_, ?_⟩
  · rcases htrig with h | ⟨instr, hi, hv⟩
    · simp [executeState, h]
    · simp [executeState, hi, hv]
  · intro hno
    exact ⟨awsRun_no_veto _ _ hno,
      by simp [addWorldState, awsRun_no_veto _ _ hno]⟩
  · intro hex
    simp [addWorldState, awsRun_veto _ _ hex]

/-! ## Concrete fixtures shared by witnesses -/

def wAccount : Account := { address := 5, contractName := "C" }

def wCode : Code :=
  { instructionList := [{ opcode := "STOP", address := 0 }]
    addressToFunctionName := [] }

def wTx : Tx := { isCreation := false, returnData := none }

def wWorld : World :=
  { accounts := [(5, wAccount)], transactionSequence := [wTx]
    node := none, topoKeys := [] }

def wEnv : Env :=
  { sender := BV.sym "sender" 256, activeAccount := wAccount, code := wCode
    activeFunctionName := "f" }

def wConstraints : Constraints := { asList := [], weighted := [] }

def wMState : MState :=
  { pc := 0, stack := [], constraints := wConstraints
    minGasUsed := 1, maxGasUsed := 2 }

def wData (u : Nat) : GStateData :=
  { uid := u, env := wEnv, mstate := wMState, node := 0, world := wWorld
    lastReturnData := none, anns := [] }

def wState (u : Nat) : GState := GState.mk (wData u) [(wTx, none)]

def wNode : Node :=
  { contractName := "C", functionName := "f", flags := 0
    constraints := wConstraints, states := [] }

def wKM : KM :=
  { keccakParent := [], getFunction := [], valuesForSize := []
    valueInverse := [], flagConditions := [], deleteConstraints := [] }

def wES : EngineState :=
  { openStates := [], heap := [(0, wNode)], nodesDict := [0], edges := []
    requiresStatespace := true, nextUid := 1, km := wKM, rng := [] }

def wCfg : EngineCfg :=
  { preHooks := fun _ => [], postHooks := fun _ => [], awsHooks := [] }

/-- A state whose PC is past the end of the (single-instruction) code. -/
def wStateOverflow : GState :=
  GState.mk { wData 0 with mstate := { wMState with pc := 3 } } [(wTx, none)]

/-- C8 witness: on a concrete PC-overflow state the step returns no
successors and no opcode and commits through the hook pass. -/
theorem c8_witness :
    executeState wCfg id (fun _ => EvalOutcome.vmException) (fun _ _ => [])
        wES wStateOverflow =
      some ([], none,
        { wES with openStates :=
            addWorldState wCfg.awsHooks wES.openStates wStateOverflow },
        [TraceEv.addWorldPhase wStateOverflow.uid]) :=
  (c8_overflow_or_pre_veto_commits wCfg id _ _ wES wStateOverflow
    (Or.inl (by rfl))).1

/-! ## Claim C4 -/

/-- C4: on a `TransactionStartSignal`, `execute_state` returns exactly one
successor, built from the signal transaction's `initial_global_state()`
(`initState`), whose transaction stack equals the caller's stack plus an
appended `(new transaction, caller state)` frame — so its length is the
caller's plus one — whose node is the caller's node and whose constraints
are the signal state's constraints; the step's trace is empty, so no
per-opcode post hooks run on this successor. -/
theorem c4_start_signal
    (cfg : EngineCfg) (findK : BV → BV) (evalr : GState → EvalOutcome)
    (evalPost : String → GState → List GState) (es : EngineState) (g : GState)
    (instr : Instr) (tx : Tx) (initState sigState : GState)
    (hpc : g.data.env.code.instructionList[g.data.mstate.pc]? = some instr)
    (hpre : (cfg.preHooks instr.opcode).any (fun hk => hk g) = false)
    (hev : evalr g = EvalOutcome.startSignal tx initState sigState) :
    ∃ newState,
      executeState cfg findK evalr evalPost es g =
        some ([newState], some instr.opcode, es, []) ∧
      newState.txStack = g.txStack ++ [(tx, some g)] ∧
      newState.txStack.length = g.txStack.length + 1 ∧
      newState.data.node = g.data.node ∧
      newState.data.mstate.constraints = sigState.data.mstate.constraints := by
  refine ⟨((initState.withTxStack (g.txStack ++ [(tx, some g)])).withNode
      g.data.node).withConstraints sigState.data.mstate.constraints,
    ?_, ?_, ?_, ?_, ?_⟩
  · simp [executeState, hpc, hpre, hev, handleStartSignal]
  · simp [GState.withConstraints, GState.withMState, GState.withData,
      GState.withNode, GState.withTxStack]
  · simp [GState.withConstraints, GState.withMState, GState.withData,
      GState.withNode, GState.withTxStack]
  · simp [GState.withConstraints, GState.withMState, GState.withData,
      GState.withNode, GState.withTxStack]
  · simp [GState.withConstraints, GState.withMState, GState.withData,
      GState.withNode, GState.withTxStack]

/-- C4 witness: a concrete start signal yields exactly the described
singleton successor. -/
theorem c4_witness :
    ∃ newState,
      executeState wCfg id
          (fun _ => EvalOutcome.startSignal wTx (wState 3) (wState 4))
          (fun _ _ => []) wES (wState 0) =
        some ([newState], some "STOP", wES, []) ∧
      newState.txStack = (wState 0).txStack ++ [(wTx, some (wState 0))] ∧
      newState.txStack.length = (wState 0).txStack.length + 1 ∧
      newState.data.node = (wState 0).data.node ∧
      newState.data.mstate.constraints = (wState 4).data.mstate.constraints :=
  c4_start_signal wCfg id _ _ wES (wState 0) { opcode := "STOP", address := 0 }
    wTx (wState 3) (wState 4) (by rfl) (by rfl) rfl

/-! ## Claim C5 -/

theorem execLoop_nil {α : Type} (sat : α → Bool) (trackGas : Bool)
    (acc : ExecAcc α) :
    execLoop sat trackGas [] acc =
      (if trackGas then some acc.finalStates else none, acc) := by
  simp [execLoop]

theorem execLoop_cons_deadline {α : Type} (sat : α → Bool) (trackGas : Bool)
    (it : IterIn α) (rest : List (IterIn α)) (acc : ExecAcc α)
    (hd : it.deadlineHit = true) :
    execLoop sat trackGas (it :: rest) acc =
      (if trackGas then some (acc.finalStates ++ [it.state]) else none, acc) := by
  simp [execLoop, hd]

theorem execLoop_cons_notImpl {α : Type} (sat : α → Bool) (trackGas : Bool)
    (it : IterIn α) (rest : List (IterIn α)) (acc : ExecAcc α)
    (hd : it.deadlineHit = false) (ho : it.outcome = StepEval.notImplemented) :
    execLoop sat trackGas (it :: rest) acc = execLoop sat trackGas rest acc := by
  simp [execLoop, hd, ho]

theorem execLoop_cons_ok {α : Type} (sat : α → Bool) (trackGas : Bool)
    (it : IterIn α) (rest : List (IterIn α)) (acc : ExecAcc α)
    (succs : List α)
    (hd : it.deadlineHit = false) (ho : it.outcome = StepEval.ok succs) :
    execLoop sat trackGas (it :: rest) acc =
      execLoop sat trackGas rest
        { finalStates :=
            if (succs.filter sat).isEmpty && trackGas then
              acc.finalStates ++ [it.state]
            else acc.finalStates
          workAppended := acc.workAppended ++ succs.filter sat
          cfgCalls := acc.cfgCalls ++ [succs.filter sat]
          totalStates := acc.totalStates + (succs.filter sat).length } := by
  simp [execLoop, hd, ho]

theorem execLoop_acc_spec {α : Type} (sat : α → Bool) (trackGas : Bool)
    (trace : List (IterIn α)) (acc : ExecAcc α) :
    ∃ A CL,
      (execLoop sat trackGas trace acc).2.workAppended =
        acc.workAppended ++ A ∧
      (execLoop sat trackGas trace acc).2.cfgCalls = acc.cfgCalls ++ CL ∧
      A = CL.flatten ∧
      (execLoop sat trackGas trace acc).2.totalStates =
        acc.totalStates + A.length ∧
      (∀ call ∈ CL, ∀ s ∈ call, sat s = true) := by
  induction trace generalizing acc with
  | nil =>
    exact ⟨[], [], by simp [execLoop_nil], by simp [execLoop_nil], by simp,
      by simp [execLoop_nil], by simp⟩
  | cons it rest ih =>
    by_cases hd : it.deadlineHit
    · rw [execLoop_cons_deadline sat trackGas it rest acc hd]
      exact ⟨[], [], by simp, by simp, by simp, by simp, by simp⟩
    · rw [Bool.not_eq_true] at hd
      cases ho : it.outcome with
      | notImplemented =>
        rw [execLoop_cons_notImpl sat trackGas it rest acc hd ho]
        exact ih acc
      | ok succs =>
        rw [execLoop_cons_ok sat trackGas it rest acc succs hd ho]
        obtain ⟨A, CL, h1, h2, h3, h4, h5⟩ := ih
          { finalStates :=
              if (succs.filter sat).isEmpty && trackGas then
                acc.finalStates ++ [it.state]
              else acc.finalStates
            workAppended := acc.workAppended ++ succs.filter sat
            cfgCalls := acc.cfgCalls ++ [succs.filter sat]
            totalStates := acc.totalStates + (succs.filter sat).length }
        refine ⟨succs.filter sat ++ A, succs.filter sat :: CL, ?_, ?_, ?_, ?_, ?_⟩
        · simpa [List.append_assoc] using h1
        · simpa [List.append_assoc] using h2
        · simp [h3]
        · simp only [List.length_append] at h4 ⊢
          omega
        · intro call hc s hs
          rcases List.mem_cons.mp hc with rfl | hc'
          · exact (List.mem_filter.mp hs).2
          · exact h5 call hc' s hs

/-- C5: in every iteration of `exec`, unsatisfiable successors are filtered
out before CFG management (every successor list passed to `manage_cfg`, and
every state appended to the worklist, satisfies the `is_possible` probe),
`total_states` is incremented by exactly the number of satisfiable
successors, hence equals the cumulative count of satisfiable successors ever
appended to the worklist (when it did before the run), and is monotonically
non-decreasing. -/
theorem c5_total_states_counts_sat_successors {α : Type} (sat : α → Bool)
    (trackGas : Bool) (trace : List (IterIn α)) (acc : ExecAcc α) :
    ∃ A CL,
      (execLoop sat trackGas trace acc).2.workAppended =
        acc.workAppended ++ A ∧
      (execLoop sat trackGas trace acc).2.cfgCalls = acc.cfgCalls ++ CL ∧
      A = CL.flatten ∧
      (execLoop sat trackGas trace acc).2.totalStates =
        acc.totalStates + A.length ∧
      (∀ s ∈ A, sat s = true) ∧
      (∀ call ∈ CL, ∀ s ∈ call, sat s = true) ∧
      acc.totalStates ≤ (execLoop sat trackGas trace acc).2.totalStates ∧
      (acc.totalStates = acc.workAppended.length →
        (execLoop sat trackGas trace acc).2.totalStates =
          (execLoop sat trackGas trace acc).2.workAppended.length) := by
  obtain ⟨A, CL, h1, h2, h3, h4, h5⟩ := execLoop_acc_spec sat trackGas trace acc
  refine ⟨A, CL, h1, h2, h3, h4, ?_, h5, ?_, ?_⟩
  · intro s hs
    rw [h3] at hs
    obtain ⟨call, hc, hsc⟩ := List.mem_flatten.mp hs
    exact h5 call hc s hsc
  · rw [h4]; exact Nat.le_add_right _ _
  · intro h0
    rw [h4, h1, List.length_append, h0]

/-- C5 witness: a concrete one-iteration run with one satisfiable and one
unsatisfiable successor. -/
theorem c5_witness :
    ∃ A CL,
      (execLoop (fun n => n % 2 == 0) false
          [{ state := 1, deadlineHit := false,
             outcome := StepEval.ok [2, 3] }]
          { finalStates := [], workAppended := [], cfgCalls := []
            totalStates := 0 }).2.workAppended = [] ++ A ∧
      (execLoop (fun n => n % 2 == 0) false
          [{ state := 1, deadlineHit := false,
             outcome := StepEval.ok [2, 3] }]
          { finalStates := [], workAppended := [], cfgCalls := []
            totalStates := 0 }).2.cfgCalls = [] ++ CL ∧
      A = CL.flatten ∧
      (execLoop (fun n => n % 2 == 0) false
          [{ state := 1, deadlineHit := false,
             outcome := StepEval.ok [2, 3] }]
          { finalStates := [], workAppended := [], cfgCalls := []
            totalStates := 0 }).2.totalStates = 0 + A.length ∧
      (∀ s ∈ A, (fun n => n % 2 == 0) s = true) ∧
      (∀ call ∈ CL, ∀ s ∈ call, (fun n => n % 2 == 0) s = true) ∧
      0 ≤ (execLoop (fun n => n % 2 == 0) false
          [{ state := 1, deadlineHit := false,
             outcome := StepEval.ok [2, 3] }]
          { finalStates := [], workAppended := [], cfgCalls := []
            totalStates := 0 }).2.totalStates ∧
      ((0 : Nat) = ([] : List Nat).length →
        (execLoop (fun n => n % 2 == 0) false
            [{ state := 1, deadlineHit := false,
               outcome := StepEval.ok [2, 3] }]
            { finalStates := [], workAppended := [], cfgCalls := []
              totalStates := 0 }).2.totalStates =
          (execLoop (fun n => n % 2 == 0) false
              [{ state := 1, deadlineHit := false,
                 outcome := StepEval.ok [2, 3] }]
              { finalStates := [], workAppended := [], cfgCalls := []
                totalStates := 0 }).2.workAppended.length) :=
  c5_total_states_counts_sat_successors (fun n => n % 2 == 0) false
    [{ state := 1, deadlineHit := false, outcome := StepEval.ok [2, 3] }]
    { finalStates := [], workAppended := [], cfgCalls := [], totalStates := 0 }

/-! ## Claim C10 -/

/-- The states `exec` accumulates under `track_gas`: yielded states whose
evaluation completed normally (no `NotImplementedError`) and whose
successors all failed the satisfiability filter. -/
def gasAccumulated (sat : α → Bool) (trace : List (IterIn α)) : List α :=
  trace.filterMap (fun it =>
    match it.outcome with
    | .ok succs => if (succs.filter sat).isEmpty then some it.state else none
    | .notImplemented => none)

def c10acc : ExecAcc Nat :=
  { finalStates := [], workAppended := [], cfgCalls := [], totalStates := 0 }

/-- C10 counterexample: with `track_gas` true and no deadline, the yielded
state `7`, whose evaluation raises `NotImplementedError` and therefore
produces no (satisfiable) successors, is `continue`d over and absent from
the returned accumulated list — `exec` returns `some []`, contradicting the
claim that every yielded state with no satisfiable successors is
accumulated. -/
theorem c10_counterexample :
    execLoop (fun _ => true) true
        [{ state := 7, deadlineHit := false,
           outcome := StepEval.notImplemented }] c10acc =
      (some [], c10acc) ∧ (7 : Nat) ∉ ([] : List Nat) := by
  refine ⟨?_, by simp⟩
  rw [execLoop_cons_notImpl _ _ _ _ _ rfl rfl, execLoop_nil]
  rfl

/-- C10 (amended): `exec` returns `None` whenever `track_gas` is false,
including on deadline expiry; when a deadline expires, the state just
yielded is discarded without being executed (the accumulator — worklist
log, CFG calls, `total_states` — is unchanged) and is included in the
returned list exactly when `track_gas` is true; with `track_gas` true and no
deadline hit, every yielded state whose evaluation completes normally (does
not raise `NotImplementedError`) and produces no satisfiable successors is
accumulated, and the accumulated list is returned when the worklist is
exhausted. -/
theorem c10_exec_return_value {α : Type} (sat : α → Bool)
    (trace : List (IterIn α)) (acc : ExecAcc α) :
    (execLoop sat false trace acc).1 = none ∧
    (∀ (it : IterIn α) (rest : List (IterIn α)), it.deadlineHit = true →
      execLoop sat true (it :: rest) acc =
        (some (acc.finalStates ++ [it.state]), acc) ∧
      execLoop sat false (it :: rest) acc = (none, acc)) ∧
    ((∀ it ∈ trace, it.deadlineHit = false) →
      (execLoop sat true trace acc).1 =
        some (acc.finalStates ++ gasAccumulated sat trace)) := by
  refine ⟨?_, ?_, ?_⟩
  · induction trace generalizing acc with
    | nil => simp [execLoop_nil]
    | cons it rest ih =>
      by_cases hd : it.deadlineHit
      · simp [execLoop_cons_deadline sat false it rest acc hd]
      · rw [Bool.not_eq_true] at hd
        cases ho : it.outcome with
        | notImplemented =>
          rw [execLoop_cons_notImpl sat false it rest acc hd ho]
          exact ih acc
        | ok succs =>
          rw [execLoop_cons_ok sat false it rest acc succs hd ho]
          exact ih _
  · intro it rest hd
    constructor
    · simp [execLoop_cons_deadline sat true it rest acc hd]
    · simp [execLoop_cons_deadline sat false it rest acc hd]
  · induction trace generalizing acc with
    | nil =>
      intro _
      simp [execLoop_nil, gasAccumulated]
    | cons it rest ih =>
      intro hnd
      have hd : it.deadlineHit = false := hnd it (List.mem_cons_self it rest)
      have hnd' : ∀ it' ∈ rest, it'.deadlineHit = false :=
        fun it' hm => hnd it' (List.mem_cons_of_mem it hm)
      cases ho : it.outcome with
      | notImplemented =>
        rw [execLoop_cons_notImpl sat true it rest acc hd ho]
        rw [ih acc hnd']
        simp [gasAccumulated, List.filterMap_cons, ho]
      | ok succs =>
        rw [execLoop_cons_ok sat true it rest acc succs hd ho]
        rw [ih _ hnd']
        by_cases he : (succs.filter sat).isEmpty
        · have he' : ∀ a ∈ succs, sat a = false := by
            simpa [List.isEmpty_iff, List.filter_eq_nil_iff] using he
          simp [gasAccumulated, List.filterMap_cons, ho, he, List.append_assoc]
          rw [if_pos he']
        · have he' : ¬∀ a ∈ succs, sat a = false := by
            simpa [List.isEmpty_iff, List.filter_eq_nil_iff] using he
          simp [gasAccumulated, List.filterMap_cons, ho, he]
          rw [if_neg he']

/-- C10 (amended) witness: a concrete deadline iteration and a concrete
completed no-successor iteration. -/
theorem c10_witness :
    (execLoop (fun _ => true) true
        [{ state := 3, deadlineHit := true, outcome := StepEval.ok [] },
         { state := 9, deadlineHit := false,
           outcome := StepEval.notImplemented }] c10acc =
      (some ([] ++ [3]), c10acc) ∧
     execLoop (fun _ => true) false
        [{ state := 3, deadlineHit := true, outcome := StepEval.ok [] },
         { state := 9, deadlineHit := false,
           outcome := StepEval.notImplemented }] c10acc = (none, c10acc)) ∧
    (execLoop (fun _ => true) true
        [{ state := 5, deadlineHit := false,
           outcome := StepEval.ok [] }] c10acc).1 =
      some ([] ++ gasAccumulated (fun _ => true)
        [{ state := 5, deadlineHit := false, outcome := StepEval.ok [] }]) :=
  ⟨(c10_exec_return_value (fun _ => true)
      [{ state := 3, deadlineHit := true, outcome := StepEval.ok [] },
       { state := 9, deadlineHit := false,
         outcome := StepEval.notImplemented }] c10acc).2.1
    { state := 3, deadlineHit := true, outcome := StepEval.ok [] }
    [{ state := 9, deadlineHit := false,
       outcome := StepEval.notImplemented }] rfl,
   (c10_exec_return_value (fun _ => true)
      [{ state := 5, deadlineHit := false,
         outcome := StepEval.ok [] }] c10acc).2.2
    (by intro it hit; rcases List.mem_singleton.mp hit with rfl; rfl)⟩

/-! ## Claim C7 -/

/-- C7: in `_end_message_call`, with `revert_changes` true the return
state's world state (and gas bounds) are unchanged; with `revert_changes`
false the world state is replaced by the callee's current world state, the
active account is rebound to the address-keyed entry of that world, and
exactly when the callee transaction is a contract creation the callee's
min/max gas are added onto the return state's min/max gas; in both cases
`last_return_data` is set to the given return data and the ending state's
constraints are appended onto the return state's constraints; and every
successor produced by the post-call evaluation has its node set to the
callee's node. -/
theorem c7_end_message_call (evalPost : String → GState → List GState)
    (ret g : GState) (rdata : Option Nat) :
    (∀ op r, emcPrepare ret g true rdata = some (op, r) →
      r.data.world = ret.data.world ∧
      r.data.lastReturnData = rdata ∧
      r.data.mstate.constraints.asList =
        ret.data.mstate.constraints.asList ++
          g.data.mstate.constraints.asList ∧
      r.data.mstate.minGasUsed = ret.data.mstate.minGasUsed ∧
      r.data.mstate.maxGasUsed = ret.data.mstate.maxGasUsed) ∧
    (∀ op r, emcPrepare ret g false rdata = some (op, r) →
      r.data.world = g.data.world ∧
      alistGet g.data.world.accounts ret.data.env.activeAccount.address =
        some r.data.env.activeAccount ∧
      r.data.lastReturnData = rdata ∧
      r.data.mstate.constraints.asList =
        ret.data.mstate.constraints.asList ++
          g.data.mstate.constraints.asList ∧
      (∀ tx, g.currentTransaction = some tx →
        (tx.isCreation = true →
          r.data.mstate.minGasUsed =
            ret.data.mstate.minGasUsed + g.data.mstate.minGasUsed ∧
          r.data.mstate.maxGasUsed =
            ret.data.mstate.maxGasUsed + g.data.mstate.maxGasUsed) ∧
        (tx.isCreation = false →
          r.data.mstate.minGasUsed = ret.data.mstate.minGasUsed ∧
          r.data.mstate.maxGasUsed = ret.data.mstate.maxGasUsed))) ∧
    (∀ rc succs, endMessageCall evalPost ret g rc rdata = some succs →
      ∀ s ∈ succs, s.data.node = g.data.node) := by
  refine ⟨?_, ?_, ?_⟩
  · intro op r h
    simp only [emcPrepare, Option.bind_eq_bind, Option.pure_def,
      if_true] at h
    rw [Option.bind_eq_some] at h
    obtain ⟨instr, hi, hr⟩ := h
    simp only [Option.some.injEq, Prod.mk.injEq] at hr
    obtain ⟨hop, hret⟩ := hr
    subst hret
    simp [GState.withConstraints, GState.withMState, GState.withData,
      GState.withLastReturnData]
  · intro op r h
    simp only [emcPrepare, Option.bind_eq_bind, Option.pure_def,
      if_false, Bool.false_eq_true] at h
    rw [Option.bind_eq_some] at h
    obtain ⟨instr, hi, h⟩ := h
    rw [Option.bind_eq_some] at h
    obtain ⟨acct, ha, h⟩ := h
    rw [Option.bind_eq_some] at h
    obtain ⟨tx, htx, h⟩ := h
    simp only [Option.some.injEq, Prod.mk.injEq] at h
    obtain ⟨hop, hret⟩ := h
    subst hret
    simp only [GState.withConstraints, GState.withMState, GState.withData,
      GState.withLastReturnData, GState.withWorld, GState.withEnv,
      GState.data_mk] at ha htx ⊢
    refine ⟨?_, ?_, ?_, ?_, ?_⟩
    · by_cases hc : tx.isCreation <;> simp [hc]
    · by_cases hc : tx.isCreation <;> simpa [hc] using ha
    · by_cases hc : tx.isCreation <;> simp [hc]
    · by_cases hc : tx.isCreation <;> simp [hc]
    · intro tx' htx'
      have : tx' = tx := by
        simp only [GState.currentTransaction] at htx htx'
        rw [htx] at htx'
        exact (Option.some.injEq _ _ ▸ htx').symm
      subst this
      constructor
      · intro hc; simp [hc]
      · intro hc; simp [hc]
  · intro rc succs h s hs
    simp only [endMessageCall, Option.bind_eq_bind, Option.pure_def] at h
    rw [Option.bind_eq_some] at h
    obtain ⟨pr, hpr, hmap⟩ := h
    simp only [Option.some.injEq] at hmap
    subst hmap
    obtain ⟨s', hs', rfl⟩ := List.mem_map.mp hs
    simp [GState.withNode, GState.withData]

/-- C7 witness: a concrete reverting end-call leaves the world state
untouched and sets the return data and appended constraints. -/
theorem c7_witness :
    ∃ pr, emcPrepare (wState 1) (wState 2) true (some 9) = some pr ∧
      pr.2.data.world = (wState 1).data.world ∧
      pr.2.data.lastReturnData = some 9 ∧
      pr.2.data.mstate.constraints.asList =
        (wState 1).data.mstate.constraints.asList ++
          (wState 2).data.mstate.constraints.asList := by
  have hpr : emcPrepare (wState 1) (wState 2) true (some 9) =
      some ("STOP", ((wState 1).withConstraints
        { asList := (wState 1).data.mstate.constraints.asList ++
            (wState 2).data.mstate.constraints.asList
          weighted :=
            (wState 1).data.mstate.constraints.weighted }).withLastReturnData
        (some 9)) := by rfl
  have h := (c7_end_message_call (fun _ _ => []) (wState 1) (wState 2)
    (some 9)).1 _ _ hpr
  exact ⟨_, hpr, h.1, h.2.1, h.2.2.1⟩

/-! ## Claim C3 -/

/-- C3: on a `VmException`, `execute_state` pops the top frame of the
state's transaction stack; if the popped frame's return-state is null the
step produces no successors and leaves the engine state (in particular
`open_states`) unchanged; otherwise the per-opcode post hooks run on the
popped failing state first (first trace event), then the end-message-call
path runs with `revert_changes` true and `return_data` null, and its
successors pass through the closing post-hook phase. -/
theorem c3_vm_exception
    (cfg : EngineCfg) (findK : BV → BV) (evalr : GState → EvalOutcome)
    (evalPost : String → GState → List GState) (es : EngineState) (g : GState)
    (instr : Instr) (tx : Tx)
    (hpc : g.data.env.code.instructionList[g.data.mstate.pc]? = some instr)
    (hpre : (cfg.preHooks instr.opcode).any (fun hk => hk g) = false)
    (hev : evalr g = EvalOutcome.vmException) :
    (g.txStack.getLast? = some (tx, none) →
      executeState cfg findK evalr evalPost es g =
        some ([], some instr.opcode, es,
          [TraceEv.postHookPhase instr.opcode []])) ∧
    (∀ retState succs, g.txStack.getLast? = some (tx, some retState) →
      endMessageCall evalPost retState (g.withTxStack g.txStack.dropLast)
          true none = some succs →
      executeState cfg findK evalr evalPost es g =
        some (executePostHook gsBeq (cfg.postHooks instr.opcode) succs,
          some instr.opcode, es,
          [TraceEv.postHookPhase instr.opcode [g.uid],
           TraceEv.emcPhase retState.uid true true,
           TraceEv.postHookPhase instr.opcode (succs.map GState.uid)])) := by
  constructor
  · intro hlast
    simp [executeState, hpc, hpre, hev, handleVmException, hlast]
  · intro retState succs hlast hemc
    simp [executeState, hpc, hpre, hev, handleVmException, hlast, hemc,
      GState.uid]

/-- C3 witness: a concrete top-level `VmException` ends the path with no
successors and no commit. -/
theorem c3_witness :
    executeState wCfg id (fun _ => EvalOutcome.vmException) (fun _ _ => [])
        wES (wState 0) =
      some ([], some "STOP", wES, [TraceEv.postHookPhase "STOP" []]) :=
  (c3_vm_exception wCfg id _ _ wES (wState 0)
    { opcode := "STOP", address := 0 } wTx (by rfl) (by rfl) rfl).1 (by rfl)

/-! ## Claim C1 -/

def c1cfg : EngineCfg :=
  { preHooks := fun _ => []
    postHooks := fun op => if op = "STOP" then [fun _ => true] else []
    awsHooks := [] }

/-- C1 (code bug): `_execute_post_hook` removes successors from the list it
is iterating over.  With one registered post hook for the step's opcode that
raises `SkipState` on every state, and the evaluator returning two
successors, the step keeps the second successor: removing the first shifts
the list under CPython's list iterator, so the second is never yielded to
the hook and never dropped — while the claim requires every successor some
hook would veto (here both) to be dropped, and every surviving successor to
have been run through every registered hook. -/
theorem postHookPass_true_pair (beq : α → α → Bool) (veto : α → Bool)
    (a b : α) (haa : beq a a = true) (hv : ∀ x, veto x = true) :
    postHookPass beq veto [a, b] 0 = [b] := by
  have he : List.eraseP (fun y => beq a y) [a, b] = [b] :=
    List.eraseP_cons_of_pos (by simpa using haa)
  rw [postHookPass]
  simp only [List.length_cons, List.length_nil, Nat.zero_lt_succ, dif_pos,
    List.get, hv, if_pos, he]
  rw [postHookPass]
  simp

theorem c1_post_hook_veto_bug :
    executeState c1cfg id
        (fun _ => EvalOutcome.ok [wState 10, wState 11]) (fun _ _ => [])
        wES (wState 0) =
      some ([wState 11], some "STOP", wES,
        [TraceEv.postHookPhase "STOP" [10, 11]]) := by
  have h1 : (wState 0).data.env.code.instructionList.get?
        (wState 0).data.mstate.pc =
      some { opcode := "STOP", address := 0 } := rfl
  have hpass : executePostHook gsBeq (c1cfg.postHooks "STOP")
      [wState 10, wState 11] = [wState 11] := by
    have hh : c1cfg.postHooks "STOP" = [fun _ => true] := rfl
    rw [hh]
    simp only [executePostHook, List.foldl]
    exact postHookPass_true_pair gsBeq _ (wState 10) (wState 11) rfl
      (fun _ => rfl)
  have hpre : ((c1cfg.preHooks "STOP").any fun hk => hk (wState 0)) = false :=
    rfl
  have huid : [wState 10, wState 11].map GState.uid = [10, 11] := rfl
  simp only [executeState, h1, hpre, Bool.false_eq_true, if_false, hpass, huid]

/-! ## Claim C6 -/

theorem alistGet_map_set_self {β : Type} [DecidableEq α]
    (m : List (α × β)) (k : α) (v : β)
    (hf : (m.find? (fun p => (p.1 = k : Bool))).isSome) :
    alistGet (m.map (fun p => if p.1 = k then (k, v) else p)) k = some v := by
  induction m with
  | nil => simp at hf
  | cons hd tl ih =>
    by_cases hk : hd.1 = k
    · simp [alistGet, List.find?_cons, hk]
    · have hdec : (decide (hd.1 = k)) = false := by simp [hk]
      rw [List.find?_cons, hdec] at hf
      simp only [List.map_cons, if_neg hk, alistGet, List.find?_cons, hdec]
      simpa [alistGet] using ih hf

theorem alistGet_map_set_ne {β : Type} [DecidableEq α]
    (m : List (α × β)) (k k' : α) (v : β) (h : k' ≠ k) :
    alistGet (m.map (fun p => if p.1 = k then (k, v) else p)) k' =
      alistGet m k' := by
  induction m with
  | nil => rfl
  | cons hd tl ih =>
    by_cases hk : hd.1 = k
    · have hkd : (decide (k = k')) = false := by
        simp only [decide_eq_false_iff_not]
        exact fun he => h he.symm
      have hne : (decide (hd.1 = k')) = false := by
        simp only [decide_eq_false_iff_not]
        rw [hk]; exact fun he => h he.symm
      simp only [List.map_cons, if_pos hk, alistGet, List.find?_cons, hkd, hne]
      simpa [alistGet] using ih
    · have h2 : (if hd.1 = k then (k, v) else hd) = hd := if_neg hk
      by_cases hk' : hd.1 = k'
      · simp only [List.map_cons, h2]
        simp [alistGet, List.find?_cons, hk']
      · have hne : (decide (hd.1 = k')) = false := by simp [hk']
        simp only [List.map_cons, h2, alistGet, List.find?_cons, hne]
        simpa [alistGet] using ih

theorem alistGet_append_single_self {β : Type} [DecidableEq α]
    (m : List (α × β)) (k : α) (v : β)
    (hf : ¬ (m.find? (fun p => (p.1 = k : Bool))).isSome) :
    alistGet (m ++ [(k, v)]) k = some v := by
  induction m with
  | nil => simp [alistGet, List.find?_cons]
  | cons hd tl ih =>
    by_cases hk : hd.1 = k
    · exact absurd (by simp [List.find?_cons, hk]) hf
    · have hdec : (decide (hd.1 = k)) = false := by simp [hk]
      rw [List.find?_cons, hdec] at hf
      simp only [List.cons_append, alistGet, List.find?_cons, hdec]
      simpa [alistGet] using ih hf

theorem alistGet_append_single_ne {β : Type} [DecidableEq α]
    (m : List (α × β)) (k k' : α) (v : β) (h : k' ≠ k) :
    alistGet (m ++ [(k, v)]) k' = alistGet m k' := by
  have hkd : (decide (k = k')) = false := by
    simp only [decide_eq_false_iff_not]
    exact fun he => h he.symm
  induction m with
  | nil => simp [alistGet, List.find?_cons, hkd]
  | cons hd tl ih =>
    by_cases hk' : hd.1 = k'
    · simp [alistGet, List.find?_cons, hk']
    · have hne : (decide (hd.1 = k')) = false := by simp [hk']
      simp only [List.cons_append, alistGet, List.find?_cons, hne]
      simpa [alistGet] using ih

theorem alistGet_alistSet_self {β : Type} [DecidableEq α]
    (m : List (α × β)) (k : α) (v : β) :
    alistGet (alistSet m k v) k = some v := by
  unfold alistSet
  by_cases hf : (m.find? (fun p => (p.1 = k : Bool))).isSome
  · rw [if_pos hf]; exact alistGet_map_set_self m k v hf
  · rw [if_neg hf]; exact alistGet_append_single_self m k v hf

theorem alistGet_alistSet_ne {β : Type} [DecidableEq α]
    (m : List (α × β)) (k k' : α) (v : β) (h : k' ≠ k) :
    alistGet (alistSet m k v) k' = alistGet m k' := by
  unfold alistSet
  by_cases hf : (m.find? (fun p => (p.1 = k : Bool))).isSome
  · rw [if_pos hf]; exact alistGet_map_set_ne m k k' v h
  · rw [if_neg hf]; exact alistGet_append_single_ne m k k' v h

/-- Per-step behaviour of `_new_node_state`: the state keeps its identity and
machine state but is reattached to the freshly minted node; the node is
stored in the heap; when statespace recording is on, exactly the described
edge is appended. -/
theorem newNodeState_spec (es : EngineState) (s : GState) (t : JumpType)
    (c : Option Term) (es' : EngineState) (s' : GState)
    (h : newNodeState es s t c = Except.ok (es', s')) :
    s'.uid = s.uid ∧
    s'.data.node = es.nextUid ∧
    s'.data.mstate = s.data.mstate ∧
    es'.nextUid = es.nextUid + 1 ∧
    es'.requiresStatespace = es.requiresStatespace ∧
    (∃ n, alistGet es'.heap es.nextUid = some n) ∧
    (∀ k, k ≠ es.nextUid → alistGet es'.heap k = alistGet es.heap k) ∧
    (es.requiresStatespace = true →
      es'.edges = es.edges ++
        [{ src := s.data.node, dst := es.nextUid, jtype := t,
           condition := c }]) ∧
    (es.requiresStatespace = false → es'.edges = es.edges) := by
  simp only [newNodeState] at h
  split at h
  · rw [Except.ok.injEq, Prod.mk.injEq] at h
    obtain ⟨he2, hs2⟩ := h
    subst he2
    subst hs2
    refine ⟨rfl, rfl, rfl, ?_, ?_, ?_, ?_, ?_, ?_⟩
    · by_cases hrs : es.requiresStatespace <;> simp [hrs]
    · by_cases hrs : es.requiresStatespace <;> simp [hrs]
    · by_cases hrs : es.requiresStatespace <;>
        simp [hrs, alistGet_alistSet_self]
    · intro k hk
      by_cases hrs : es.requiresStatespace <;>
        simp [hrs, alistGet_alistSet_ne _ _ _ _ hk]
    · intro hrs
      simp [hrs, GState.withNode, GState.withData]
    · intro hrs
      simp [hrs]
  · exact absurd h (by simp)

/-- `mintConditional` succeeds exactly as a `_new_node_state` call whose
guard is the last element of the state's constraint list. -/
theorem mintConditional_spec (es : EngineState) (s : GState)
    (e' : EngineState) (s' : GState)
    (h : mintConditional es s = Except.ok (e', s')) :
    ∃ guard, s.data.mstate.constraints.asList.getLast? = some guard ∧
      newNodeState es s JumpType.CONDITIONAL (some guard) =
        Except.ok (e', s') := by
  unfold mintConditional at h
  cases hg : s.data.mstate.constraints.asList.getLast? with
  | none => rw [hg] at h; exact absurd h (by simp)
  | some c => rw [hg] at h; exact ⟨c, rfl, h⟩

/-- Invariants of a `foldNodes` run whose step function mints a new node per
state. -/
theorem foldNodes_spec
    (mk : EngineState → GState → Except String (EngineState × GState))
    (hmk : ∀ e s e' s', mk e s = Except.ok (e', s') →
      s'.uid = s.uid ∧ s'.data.node = e.nextUid ∧
      e'.nextUid = e.nextUid + 1 ∧
      e'.requiresStatespace = e.requiresStatespace ∧
      (∃ n, alistGet e'.heap e.nextUid = some n) ∧
      (∀ k, k ≠ e.nextUid → alistGet e'.heap k = alistGet e.heap k) ∧
      (∃ tail, e'.edges = e.edges ++ tail))
    (states : List GState) :
    ∀ es es' states', foldNodes es states mk = Except.ok (es', states') →
      states'.length = states.length ∧
      states'.map GState.uid = states.map GState.uid ∧
      es.nextUid ≤ es'.nextUid ∧
      es'.requiresStatespace = es.requiresStatespace ∧
      (∀ k, k < es.nextUid → alistGet es'.heap k = alistGet es.heap k) ∧
      (∃ tail, es'.edges = es.edges ++ tail) ∧
      (∀ p ∈ states.zip states',
        es.nextUid ≤ p.2.data.node ∧ p.2.data.node < es'.nextUid ∧
        (alistGet es'.heap p.2.data.node).isSome) := by
  induction states with
  | nil =>
    intro es es' states' h
    simp only [foldNodes] at h
    rw [Except.ok.injEq, Prod.mk.injEq] at h
    obtain ⟨rfl, rfl⟩ := h
    exact ⟨rfl, rfl, Nat.le_refl _, rfl, fun k _ => rfl, ⟨[], by simp⟩,
      by simp⟩
  | cons s rest ih =>
    intro es es' states' h
    simp only [foldNodes] at h
    cases hmk1 : mk es s with
    | error e =>
      rw [hmk1] at h
      simp only [bind, Except.bind] at h
      exact absurd h (by simp)
    | ok r =>
      rw [hmk1] at h
      simp only [bind, Except.bind] at h
      cases hfold : foldNodes r.1 rest mk with
      | error e =>
        rw [hfold] at h
        exact absurd h (by simp)
      | ok rr =>
        rw [hfold] at h
        simp only [pure, Except.pure] at h
        rw [Except.ok.injEq, Prod.mk.injEq] at h
        obtain ⟨rfl, rfl⟩ := h
        obtain ⟨hu, hn, hnext, hrs, ⟨n0, hheapnew⟩, hheapkeep, htail0⟩ :=
          hmk es s r.1 r.2 hmk1
        obtain ⟨ihlen, ihuid, ihnext, ihrs, ihheap, ihtail, ihzip⟩ :=
          ih r.1 rr.1 rr.2 hfold
        refine ⟨?_, ?_, ?_, ?_, ?_, ?_, ?_⟩
        · simp [ihlen]
        · simp [hu, ihuid]
        · omega
        · rw [ihrs, hrs]
        · intro k hk
          rw [ihheap k (by omega), hheapkeep k (by omega)]
        · obtain ⟨t0, ht0⟩ := htail0
          obtain ⟨t1, ht1⟩ := ihtail
          exact ⟨t0 ++ t1, by rw [ht1, ht0, List.append_assoc]⟩
        · intro p hp
          simp only [List.zip_cons_cons] at hp
          rcases List.mem_cons.mp hp with rfl | hp'
          · have hnode : (s, r.2).2.data.node = es.nextUid := hn
            refine ⟨Nat.le_of_eq hnode.symm, by omega, ?_⟩
            rw [hnode, ihheap es.nextUid (by omega), hheapnew]
            rfl
          · obtain ⟨hb1, hb2, hb3⟩ := ihzip p hp'
            exact ⟨by omega, hb2, hb3⟩

/-- Edge content for the CONDITIONAL minting fold (JUMPI and forked
SLOAD/SSTORE): every successor is reattached to a fresh node and an edge
from its old node to the new one, guarded by the last element of its
constraint list, is recorded and survives to the end of the fold. -/
theorem foldNodes_conditional_edges (states : List GState) :
    ∀ es es' states', es.requiresStatespace = true →
      foldNodes es states mintConditional = Except.ok (es', states') →
      ∀ p ∈ states.zip states', ∃ guard,
        p.1.data.mstate.constraints.asList.getLast? = some guard ∧
        es.nextUid ≤ p.2.data.node ∧
        { src := p.1.data.node, dst := p.2.data.node,
          jtype := JumpType.CONDITIONAL,
          condition := some guard } ∈ es'.edges := by
  induction states with
  | nil =>
    intro es es' states' _ h p hp
    simp only [foldNodes] at h
    rw [Except.ok.injEq, Prod.mk.injEq] at h
    obtain ⟨rfl, rfl⟩ := h
    simp at hp
  | cons s rest ih =>
    intro es es' states' hrs h p hp
    simp only [foldNodes] at h
    cases hmk1 : mintConditional es s with
    | error e =>
      rw [hmk1] at h
      simp only [bind, Except.bind] at h
      exact absurd h (by simp)
    | ok r =>
      rw [hmk1] at h
      simp only [bind, Except.bind] at h
      cases hfold : foldNodes r.1 rest mintConditional with
      | error e =>
        rw [hfold] at h
        exact absurd h (by simp)
      | ok rr =>
        rw [hfold] at h
        simp only [pure, Except.pure] at h
        rw [Except.ok.injEq, Prod.mk.injEq] at h
        obtain ⟨rfl, rfl⟩ := h
        obtain ⟨guard, hguard, hnns⟩ := mintConditional_spec es s r.1 r.2 hmk1
        obtain ⟨hu, hn, hms, hnext, hrs', ⟨n0, hheapnew⟩, hheapkeep, hedges, _⟩ :=
          newNodeState_spec es s JumpType.CONDITIONAL (some guard) r.1 r.2 hnns
        obtain ⟨_, _, ihnext, _, _, ihtail, _⟩ :=
          foldNodes_spec mintConditional
            (fun e s e' s' hh => by
              obtain ⟨g, _, hg⟩ := mintConditional_spec e s e' s' hh
              obtain ⟨a1, a2, _, a3, a4, a5, a6, a7, a8⟩ :=
                newNodeState_spec e s JumpType.CONDITIONAL (some g) e' s' hg
              refine ⟨a1, a2, a3, a4, a5, a6, ?_⟩
              by_cases hb : e.requiresStatespace
              · exact ⟨_, a7 hb⟩
              · exact ⟨[], by simpa using a8 (by simpa using hb)⟩)
            rest r.1 rr.1 rr.2 hfold
        simp only [List.zip_cons_cons] at hp
        rcases List.mem_cons.mp hp with rfl | hp'
        · refine ⟨guard, hguard, Nat.le_of_eq hn.symm, ?_⟩
          obtain ⟨t1, ht1⟩ := ihtail
          rw [ht1, hedges hrs, hn]
          simp
        · have hrs2 : r.1.requiresStatespace = true := by rw [hrs', hrs]
          obtain ⟨g, hg1, hg2, hg3⟩ := ih r.1 rr.1 rr.2 hrs2 hfold p hp'
          exact ⟨g, hg1, by omega, hg3⟩

/-- The closing append loop only touches node `states` lists. -/
theorem appendFold_fields (states : List GState) :
    ∀ es : EngineState,
      (states.foldl appendStateToNode es).edges = es.edges ∧
      (states.foldl appendStateToNode es).nextUid = es.nextUid ∧
      (states.foldl appendStateToNode es).requiresStatespace =
        es.requiresStatespace := by
  induction states with
  | nil => intro es; exact ⟨rfl, rfl, rfl⟩
  | cons s rest ih =>
    intro es
    simpa [appendStateToNode] using ih (appendStateToNode es s)

/-- The closing append loop preserves heap presence and only grows node
`states` lists. -/
theorem appendFold_mono (states : List GState) :
    ∀ (es : EngineState) (k : Nat) (n : Node), alistGet es.heap k = some n →
      ∃ n', alistGet (states.foldl appendStateToNode es).heap k = some n' ∧
        ∀ u ∈ n.states, u ∈ n'.states := by
  induction states with
  | nil => intro es k n h; exact ⟨n, h, fun u hu => hu⟩
  | cons s rest ih =>
    intro es k n h
    simp only [List.foldl_cons]
    by_cases hk : k = s.data.node
    · have h' : alistGet es.heap s.data.node = some n := by
        rw [← hk]; exact h
      have h1 : alistGet (appendStateToNode es s).heap k =
          some { n with states := n.states ++ [s.uid] } := by
        rw [hk]
        simp [appendStateToNode, alistGet_alistModify_self, h']
      obtain ⟨n', h2, h3⟩ := ih _ _ _ h1
      exact ⟨n', h2, fun u hu => h3 u (by simp [hu])⟩
    · have h1 : alistGet (appendStateToNode es s).heap k = some n := by
        simpa [appendStateToNode, alistGet_alistModify_ne _ _ _ _ hk] using h
      exact ih _ _ _ h1

/-- After the closing loop, every state's uid sits in its node's `states`
list. -/
theorem appendFold_mem (states : List GState) :
    ∀ es : EngineState,
      (∀ s ∈ states, (alistGet es.heap s.data.node).isSome) →
      ∀ s ∈ states,
        ∃ n, alistGet (states.foldl appendStateToNode es).heap s.data.node =
            some n ∧ s.uid ∈ n.states := by
  induction states with
  | nil => intro es _ s hs; simp at hs
  | cons s0 rest ih =>
    intro es hpres s hs
    simp only [List.foldl_cons]
    rcases List.mem_cons.mp hs with rfl | hs'
    · obtain ⟨n, hn⟩ := Option.isSome_iff_exists.mp
        (hpres s (List.mem_cons_self _ _))
      have h1 : alistGet (appendStateToNode es s).heap s.data.node =
          some { n with states := n.states ++ [s.uid] } := by
        simp [appendStateToNode, alistGet_alistModify_self, hn]
      obtain ⟨n', h2, h3⟩ := appendFold_mono rest _ _ _ h1
      exact ⟨n', h2, h3 s.uid (by simp)⟩
    · apply ih (appendStateToNode es s0) _ s hs'
      intro t ht
      obtain ⟨n, hn⟩ := Option.isSome_iff_exists.mp
        (hpres t (List.mem_cons_of_mem _ ht))
      by_cases hk : t.data.node = s0.data.node
      · have : alistGet (appendStateToNode es s0).heap t.data.node =
            (alistGet es.heap t.data.node).map
              (fun nd => { nd with states := nd.states ++ [s0.uid] }) := by
          rw [hk]
          simp [appendStateToNode, alistGet_alistModify_self]
        rw [this, hn]
        rfl
      · have : alistGet (appendStateToNode es s0).heap t.data.node =
            alistGet es.heap t.data.node := by
          simp [appendStateToNode, alistGet_alistModify_ne _ _ _ _ hk]
        rw [this, hn]
        rfl

theorem mem_zip_right_of_mem {α β : Type} {l1 : List α} {l2 : List β} {b : β}
    (hlen : l1.length = l2.length) (hb : b ∈ l2) :
    ∃ a, (a, b) ∈ l1.zip l2 := by
  obtain ⟨i, hi, hbe⟩ := List.mem_iff_getElem.mp hb
  have hi1 : i < l1.length := by omega
  refine ⟨l1[i], ?_⟩
  have hiz : i < (l1.zip l2).length := by
    simp only [List.length_zip]
    omega
  have hz : (l1.zip l2)[i] = (l1[i], l2[i]) :=
    List.getElem_zip ..
  rw [← hbe, ← hz]
  exact List.getElem_mem hiz

theorem newNodeState_error_msg (es : EngineState) (s : GState) (t : JumpType)
    (c : Option Term) (msg : String)
    (h : newNodeState es s t c = Except.error msg) : msg = "IndexError" := by
  simp only [newNodeState] at h
  split at h
  · exact absurd h (by simp)
  · rw [Except.error.injEq] at h
    exact h.symm

theorem mintConditional_error_msg (es : EngineState) (s : GState)
    (msg : String) (h : mintConditional es s = Except.error msg) :
    msg = "IndexError" := by
  unfold mintConditional at h
  cases hg : s.data.mstate.constraints.asList.getLast? with
  | none =>
    rw [hg] at h
    rw [Except.error.injEq] at h
    exact h.symm
  | some cc =>
    rw [hg] at h
    exact newNodeState_error_msg _ _ _ _ _ h

theorem foldNodes_error_msg
    (mk : EngineState → GState → Except String (EngineState × GState))
    (hmk : ∀ e s msg, mk e s = Except.error msg → msg = "IndexError")
    (states : List GState) :
    ∀ es msg, foldNodes es states mk = Except.error msg →
      msg = "IndexError" := by
  induction states with
  | nil => intro es msg h; simp [foldNodes] at h
  | cons s rest ih =>
    intro es msg h
    simp only [foldNodes] at h
    cases hmk1 : mk es s with
    | error m =>
      rw [hmk1] at h
      simp only [bind, Except.bind] at h
      rw [Except.error.injEq] at h
      rw [← h]
      exact hmk es s m hmk1
    | ok r =>
      rw [hmk1] at h
      simp only [bind, Except.bind] at h
      cases hfold : foldNodes r.1 rest mk with
      | error m =>
        rw [hfold] at h
        rw [Except.error.injEq] at h
        rw [← h]
        exact ih r.1 m hfold
      | ok rr =>
        rw [hfold] at h
        simp only [pure, Except.pure] at h
        exact absurd h (by simp)

theorem manageCfg_error_eq (es : EngineState) (opcode : Option String)
    (states : List GState) (msg : String) :
    manageCfg es opcode states = Except.error msg ↔
      manageCfgBranch es opcode states = Except.error msg := by
  cases hbr : manageCfgBranch es opcode states with
  | error m => simp [manageCfg, hbr, bind, Except.bind]
  | ok br => simp [manageCfg, hbr, bind, Except.bind, pure, Except.pure]

theorem manageCfg_ok (es : EngineState) (opcode : Option String)
    (states : List GState) (es' : EngineState) (states' : List GState)
    (h : manageCfg es opcode states = Except.ok (es', states')) :
    ∃ br : EngineState × List GState,
      manageCfgBranch es opcode states = Except.ok br ∧
      es' = br.2.foldl appendStateToNode br.1 ∧ states' = br.2 := by
  cases hbr : manageCfgBranch es opcode states with
  | error m =>
    simp only [manageCfg, bind, Except.bind] at h
    rw [hbr] at h
    simp at h
  | ok br =>
    simp only [manageCfg, bind, Except.bind] at h
    rw [hbr] at h
    simp only [pure, Except.pure] at h
    rw [Except.ok.injEq, Prod.mk.injEq] at h
    exact ⟨br, rfl, h.1.symm, h.2.symm⟩

/-- 7-conjunct per-step packaging of `newNodeState_spec` for
`foldNodes_spec`. -/
theorem newNodeState_pack (t : JumpType) (c : Option Term) :
    ∀ (e : EngineState) (s : GState) (e' : EngineState) (s' : GState),
      newNodeState e s t c = Except.ok (e', s') →
      s'.uid = s.uid ∧ s'.data.node = e.nextUid ∧
      e'.nextUid = e.nextUid + 1 ∧
      e'.requiresStatespace = e.requiresStatespace ∧
      (∃ n, alistGet e'.heap e.nextUid = some n) ∧
      (∀ k, k ≠ e.nextUid → alistGet e'.heap k = alistGet e.heap k) ∧
      (∃ tail, e'.edges = e.edges ++ tail) := by
  intro e s e' s' h
  obtain ⟨a1, a2, _, a3, a4, a5, a6, a7, a8⟩ := newNodeState_spec e s t c e' s' h
  refine ⟨a1, a2, a3, a4, a5, a6, ?_⟩
  by_cases hb : e.requiresStatespace
  · exact ⟨_, a7 hb⟩
  · exact ⟨[], by simpa using a8 (by simpa using hb)⟩

theorem mintConditional_pack :
    ∀ (e : EngineState) (s : GState) (e' : EngineState) (s' : GState),
      mintConditional e s = Except.ok (e', s') →
      s'.uid = s.uid ∧ s'.data.node = e.nextUid ∧
      e'.nextUid = e.nextUid + 1 ∧
      e'.requiresStatespace = e.requiresStatespace ∧
      (∃ n, alistGet e'.heap e.nextUid = some n) ∧
      (∀ k, k ≠ e.nextUid → alistGet e'.heap k = alistGet e.heap k) ∧
      (∃ tail, e'.edges = e.edges ++ tail) := by
  intro e s e' s' h
  obtain ⟨g, _, hg⟩ := mintConditional_spec e s e' s' h
  exact newNodeState_pack JumpType.CONDITIONAL (some g) e s e' s' hg

/-- Case analysis of the `manage_cfg` decision table under the evaluator's
successor bounds. -/
theorem manageCfgBranch_cases (es : EngineState) (opcode : Option String)
    (states : List GState)
    (hJ : opcode = some "JUMP" → states.length ≤ 1)
    (hJI : opcode = some "JUMPI" → states.length ≤ 2) :
    (opcode = some "JUMP" ∧ manageCfgBranch es opcode states =
      foldNodes es states
        (fun e s => newNodeState e s JumpType.UNCONDITIONAL none)) ∨
    ((opcode = some "JUMPI" ∨
        ((opcode = some "SLOAD" ∨ opcode = some "SSTORE") ∧
          states.length > 1)) ∧
      manageCfgBranch es opcode states = foldNodes es states mintConditional) ∨
    (opcode = some "RETURN" ∧ manageCfgBranch es opcode states =
      foldNodes es states (fun e s => newNodeState e s JumpType.RETURN none)) ∨
    (¬(opcode = some "JUMPI" ∨
        ((opcode = some "SLOAD" ∨ opcode = some "SSTORE") ∧
          states.length > 1)) ∧
      manageCfgBranch es opcode states = Except.ok (es, states)) := by
  by_cases h1 : opcode = some "JUMP"
  · exact Or.inl ⟨h1, by simp [manageCfgBranch, h1, hJ h1]⟩
  · by_cases h2 : opcode = some "JUMPI"
    · exact Or.inr (Or.inl ⟨Or.inl h2,
        by simp [manageCfgBranch, h1, h2, hJI h2]⟩)
    · by_cases h3 : (opcode = some "SLOAD" ∨ opcode = some "SSTORE") ∧
          states.length > 1
      · exact Or.inr (Or.inl ⟨Or.inr h3,
          by simp [manageCfgBranch, h1, h2, h3]⟩)
      · by_cases h4 : opcode = some "RETURN"
        · exact Or.inr (Or.inr (Or.inl ⟨h4,
            by simp [manageCfgBranch, h1, h2, h3, h4]⟩))
        · exact Or.inr (Or.inr (Or.inr ⟨fun hcc => hcc.elim h2 h3,
            by simp [manageCfgBranch, h1, h2, h3, h4]⟩))

/-- C6: `manage_cfg` never changes the number of successors — every
successor passed in survives (same uids, same order) and is appended to its
(possibly newly minted) node's `states` list; under the evaluator's
successor bounds the JUMP/JUMPI assertions pass (no `assert` failure); and
each JUMPI successor — and each successor of an SLOAD/SSTORE step with two
or more successors — is reattached to a newly minted node reached by a
CONDITIONAL edge whose guard is the last element of that successor's
constraint list. -/
theorem c6_manage_cfg (es : EngineState) (opcode : Option String)
    (states : List GState)
    (hJ : opcode = some "JUMP" → states.length ≤ 1)
    (hJI : opcode = some "JUMPI" → states.length ≤ 2) :
    manageCfg es opcode states ≠ Except.error "assert" ∧
    (∀ es' states', manageCfg es opcode states = Except.ok (es', states') →
      (states'.length = states.length ∧
        states'.map GState.uid = states.map GState.uid) ∧
      ((∀ s ∈ states, (alistGet es.heap s.data.node).isSome) →
        ∀ s' ∈ states', ∃ n, alistGet es'.heap s'.data.node = some n ∧
          s'.uid ∈ n.states) ∧
      ((opcode = some "JUMPI" ∨
          ((opcode = some "SLOAD" ∨ opcode = some "SSTORE") ∧
            states.length > 1)) →
        es.requiresStatespace = true →
        ∀ p ∈ states.zip states', ∃ guard,
          p.1.data.mstate.constraints.asList.getLast? = some guard ∧
          es.nextUid ≤ p.2.data.node ∧
          { src := p.1.data.node, dst := p.2.data.node,
            jtype := JumpType.CONDITIONAL,
            condition := some guard } ∈ es'.edges)) := by
  have hcase := manageCfgBranch_cases es opcode states hJ hJI
  constructor
  · intro hcon
    rw [manageCfg_error_eq] at hcon
    rcases hcase with ⟨_, hbr⟩ | ⟨_, hbr⟩ | ⟨_, hbr⟩ | ⟨_, hbr⟩ <;>
      rw [hbr] at hcon
    · have := foldNodes_error_msg _
        (fun e s msg hh => newNodeState_error_msg e s _ _ msg hh)
        states es "assert" hcon
      simp at this
    · have := foldNodes_error_msg _
        (fun e s msg hh => mintConditional_error_msg e s msg hh)
        states es "assert" hcon
      simp at this
    · have := foldNodes_error_msg _
        (fun e s msg hh => newNodeState_error_msg e s _ _ msg hh)
        states es "assert" hcon
      simp at this
    · exact absurd hcon (by simp)
  · intro es' states' h
    obtain ⟨br, hbr2, hes', hstates'⟩ := manageCfg_ok es opcode states es' states' h
    subst hes'
    subst hstates'
    rcases hcase with ⟨hop, hbr⟩ | ⟨hcond, hbr⟩ | ⟨hop, hbr⟩ | ⟨hneg, hbr⟩
    · rw [hbr] at hbr2
      obtain ⟨hlen, huid, _, _, _, _, hzip⟩ :=
        foldNodes_spec _ (newNodeState_pack JumpType.UNCONDITIONAL none)
          states es br.1 br.2 hbr2
      refine ⟨⟨hlen, huid⟩, ?_, ?_⟩
      · intro _ s' hs'
        have hprespost : ∀ t ∈ br.2, (alistGet br.1.heap t.data.node).isSome := by
          intro t ht
          obtain ⟨a, hpz⟩ := mem_zip_right_of_mem hlen.symm ht
          exact (hzip _ hpz).2.2
        exact appendFold_mem br.2 br.1 hprespost s' hs'
      · intro hc
        rw [hop] at hc
        simp at hc
    · rw [hbr] at hbr2
      obtain ⟨hlen, huid, _, _, _, _, hzip⟩ :=
        foldNodes_spec _ mintConditional_pack states es br.1 br.2 hbr2
      refine ⟨⟨hlen, huid⟩, ?_, ?_⟩
      · intro _ s' hs'
        have hprespost : ∀ t ∈ br.2, (alistGet br.1.heap t.data.node).isSome := by
          intro t ht
          obtain ⟨a, hpz⟩ := mem_zip_right_of_mem hlen.symm ht
          exact (hzip _ hpz).2.2
        exact appendFold_mem br.2 br.1 hprespost s' hs'
      · intro _ hrs p hp
        obtain ⟨g, hg1, hg2, hg3⟩ :=
          foldNodes_conditional_edges states es br.1 br.2 hrs hbr2 p hp
        refine ⟨g, hg1, hg2, ?_⟩
        rw [(appendFold_fields br.2 br.1).1]
        exact hg3
    · rw [hbr] at hbr2
      obtain ⟨hlen, huid, _, _, _, _, hzip⟩ :=
        foldNodes_spec _ (newNodeState_pack JumpType.RETURN none)
          states es br.1 br.2 hbr2
      refine ⟨⟨hlen, huid⟩, ?_, ?_⟩
      · intro _ s' hs'
        have hprespost : ∀ t ∈ br.2, (alistGet br.1.heap t.data.node).isSome := by
          intro t ht
          obtain ⟨a, hpz⟩ := mem_zip_right_of_mem hlen.symm ht
          exact (hzip _ hpz).2.2
        exact appendFold_mem br.2 br.1 hprespost s' hs'
      · intro hc
        rw [hop] at hc
        simp at hc
    · rw [hbr] at hbr2
      rw [Except.ok.injEq] at hbr2
      rw [← hbr2]
      refine ⟨⟨rfl, rfl⟩, ?_, ?_⟩
      · intro hpres s' hs'
        exact appendFold_mem states es hpres s' hs'
      · intro hc _ p hp
        exact absurd hc hneg

def cj1 : GState :=
  GState.mk { wData 21 with
    mstate := { wMState with
      constraints := { asList := [Term.tt], weighted := [] } } } [(wTx, none)]

def cj2 : GState :=
  GState.mk { wData 22 with
    mstate := { wMState with
      constraints := { asList := [Term.ff], weighted := [] } } } [(wTx, none)]

/-- C6 witness: a concrete JUMPI step with two successors passes the
assertion. -/
theorem c6_witness :
    manageCfg wES (some "JUMPI") [cj1, cj2] ≠ Except.error "assert" :=
  (c6_manage_cfg wES (some "JUMPI") [cj1, cj2] (by decide) (by decide)).1

/-! ## Claim C2 -/

theorem indepActorStep_delete (findK : BV → BV) (key : BV) (st : IndepSt)
    (t : Term × BV) :
    ((indepActorStep findK key st t).1).km.deleteConstraints =
      st.km.deleteConstraints := by
  unfold indepActorStep getFunc160
  by_cases h : key.width = 256
  · simp only [h, if_true]
    cases halist : alistGet st.km.getFunction 160 <;> simp [halist]
  · simp [h]

theorem indepFold_delete (findK : BV → BV) (key : BV)
    (tuples : List (Term × BV)) :
    ∀ (st : IndepSt) (out : List (Term × BV)),
      ((tuples.foldl (fun (p : IndepSt × List (Term × BV)) t =>
          let r := indepActorStep findK key p.1 t
          (r.1, p.2 ++ [r.2])) (st, out)).1).km.deleteConstraints =
        st.km.deleteConstraints := by
  induction tuples with
  | nil => intro st out; rfl
  | cons t rest ih =>
    intro st out
    simp only [List.foldl_cons]
    rw [ih]
    exact indepActorStep_delete findK key st t

theorem perKey_deleteConstraints (findK : BV → BV) (acc : CKAcc) (key : BV)
    (acc' : CKAcc) (h : perKey findK acc key = some acc') :
    acc'.km.deleteConstraints = acc.km.deleteConstraints := by
  unfold perKey at h
  by_cases ht : key.valueTruthy
  · rw [if_pos ht, Option.some.injEq] at h
    rw [← h]
  · rw [if_neg ht] at h
    simp only [] at h
    split at h
    · rw [Option.some.injEq] at h
      rw [← h]
      exact indepFold_delete findK key acc.tuples _ _
    · split at h
      · exact absurd h (by simp)
      · rw [Option.some.injEq] at h
        rw [← h]

theorem topoFold_deleteConstraints (findK : BV → BV) (keys : List BV) :
    ∀ acc acc', keys.foldlM (perKey findK) acc = some acc' →
      acc'.km.deleteConstraints = acc.km.deleteConstraints := by
  induction keys with
  | nil =>
    intro acc acc' h
    simp only [List.foldlM_nil, Option.pure_def, Option.some.injEq] at h
    rw [h]
  | cons k rest ih =>
    intro acc acc' h
    simp only [List.foldlM_cons] at h
    cases h1 : perKey findK acc k with
    | none =>
      rw [h1] at h
      exact Option.noConfusion h
    | some a1 =>
      rw [h1] at h
      rw [ih a1 acc' h, perKey_deleteConstraints findK acc k a1 h1]

/-- Destructuring of a successful `concretize_keccak` call: the outputs in
terms of the key-loop accumulator, and the parts of the two states it does
not touch. -/
theorem concretizeKeccak_spec (findK : BV → BV) (km : KM) (rng : List Nat)
    (g gsig : GState) (c d v : Term) (w : List Term) (km' : KM)
    (rng' : List Nat) (g' gsig' : GState)
    (h : concretizeKeccak findK km rng g gsig =
      some (c, d, v, w, km', rng', g', gsig')) :
    ∃ acc : CKAcc,
      g.topoKeys.foldlM (perKey findK)
        { tuples := ACTOR_ADDRESSES.map
            (fun actor => (Term.eq g.data.env.sender actor, actor))
          stored := [], varConds := Term.tt, hashCond := Term.tt
          flagWeights := [], sigTopo := gsig.topoKeys, km := km
          rng := rng } = some acc ∧
      km' = acc.km ∧ rng' = acc.rng ∧
      km'.deleteConstraints = km.deleteConstraints ∧
      c = simplifyT (acc.tuples.foldl (fun nc t => Term.or t.1 nc) Term.ff) ∧
      d = (if (removeCollect acc.km.deleteConstraints
              g.data.mstate.constraints.asList).2.2 then
            (removeCollect acc.km.deleteConstraints
              g.data.mstate.constraints.asList).2.1
          else Term.ff) ∧
      v = Term.and acc.varConds acc.hashCond ∧
      w = acc.flagWeights ∧
      g'.data.mstate.constraints.asList =
        (removeCollect acc.km.deleteConstraints
          g.data.mstate.constraints.asList).1 ∧
      g'.data.mstate.constraints.weighted =
        g.data.mstate.constraints.weighted ∧
      g'.data.node = g.data.node ∧ g'.data.env = g.data.env ∧
      g'.uid = g.uid ∧ g'.txStack = g.txStack ∧
      gsig'.data.node = gsig.data.node ∧ gsig'.uid = gsig.uid ∧
      gsig'.txStack = gsig.txStack ∧
      gsig'.data.world.accounts = gsig.data.world.accounts ∧
      gsig'.data.world.node = gsig.data.world.node ∧
      gsig'.data.mstate = gsig.data.mstate := by
  simp only [concretizeKeccak, Option.bind_eq_bind] at h
  rw [Option.bind_eq_some] at h
  obtain ⟨acc, hacc, h⟩ := h
  simp only [Option.pure_def, Option.some.injEq, Prod.mk.injEq] at h
  obtain ⟨hc, hd, hv, hw, hkm, hrng, hg, hsig⟩ := h
  refine ⟨acc, hacc, hkm.symm, hrng.symm, ?_, hc.symm, ?_, hv.symm, hw.symm,
    ?_, ?_, ?_, ?_, ?_, ?_, ?_, ?_, ?_, ?_, ?_, ?_⟩
  · rw [← hkm]
    exact topoFold_deleteConstraints findK g.topoKeys _ acc hacc
  · rw [← hd]
  · rw [← hg]
    rfl
  · rw [← hg]
    rfl
  · rw [← hg]
    rfl
  · rw [← hg]
    rfl
  · rw [← hg]
    rfl
  · rw [← hg]
    rfl
  · rw [← hsig]
    rfl
  · rw [← hsig]
    rfl
  · rw [← hsig]
    rfl
  · rw [← hsig]
    rfl
  · rw [← hsig]
    rfl
  · rw [← hsig]
    rfl

theorem executeState_endSignal
    (cfg : EngineCfg) (findK : BV → BV) (evalr : GState → EvalOutcome)
    (evalPost : String → GState → List GState) (es : EngineState)
    (g : GState) (instr : Instr) (sigGs : GState) (revert : Bool)
    (hpc : g.data.env.code.instructionList.get? g.data.mstate.pc = some instr)
    (hpre : (cfg.preHooks instr.opcode).any (fun hk => hk g) = false)
    (hev : evalr g = EvalOutcome.endSignal sigGs revert) :
    executeState cfg findK evalr evalPost es g =
      handleEndSignal cfg findK evalPost es g instr.opcode sigGs revert := by
  simp only [executeState, hpc, hpre, Bool.false_eq_true, if_false]
  rw [hev]

theorem handleEndSignal_top_nocommit
    (cfg : EngineCfg) (findK : BV → BV)
    (evalPost : String → GState → List GState) (es : EngineState)
    (g : GState) (opCode : String) (sigGs : GState) (revert : Bool) (tx : Tx)
    (hlast : sigGs.txStack.getLast? = some (tx, none))
    (hcond : ((!tx.isCreation || tx.returnData.isSome) && !revert) = false) :
    handleEndSignal cfg findK evalPost es g opCode sigGs revert =
      some ([], some opCode, es, [TraceEv.postHookPhase opCode []]) := by
  simp only [handleEndSignal, hlast, Option.bind_eq_bind, Option.some_bind]
  rw [hcond]
  simp

theorem handleEndSignal_top_commit
    (cfg : EngineCfg) (findK : BV → BV)
    (evalPost : String → GState → List GState) (es : EngineState)
    (g : GState) (opCode : String) (sigGs : GState) (revert : Bool) (tx : Tx)
    (c d v : Term) (w : List Term) (km' : KM) (rng' : List Nat)
    (g' sig' : GState)
    (hlast : sigGs.txStack.getLast? = some (tx, none))
    (hcond : ((!tx.isCreation || tx.returnData.isSome) && !revert) = true)
    (hconc : concretizeKeccak findK es.km es.rng g sigGs =
      some (c, d, v, w, km', rng', g', sig')) :
    handleEndSignal cfg findK evalPost es g opCode sigGs revert =
      some ([], some opCode,
        { es with
          km := km', rng := rng'
          heap := alistModify (alistModify (alistModify (alistModify es.heap
              g'.data.node
              (fun n => { n with constraints := g'.data.mstate.constraints }))
              (sig'.withWorld { sig'.data.world with
                node := some g'.data.node }).data.node
              (fun n => { n with constraints := { n.constraints with
                asList := deleteConstraintsFrom km'.deleteConstraints
                  n.constraints.asList } }))
              g'.data.node
              (fun n => { n with constraints := { n.constraints with
                asList := n.constraints.asList ++
                  [Term.and (Term.or c d) v] } }))
              g'.data.node
              (fun n => { n with constraints := { n.constraints with
                weighted := n.constraints.weighted ++ w } })
          openStates := addWorldState cfg.awsHooks es.openStates
            (sig'.withWorld { sig'.data.world with
              node := some g'.data.node }) },
        [TraceEv.addWorldPhase
          (sig'.withWorld { sig'.data.world with
            node := some g'.data.node }).uid,
         TraceEv.postHookPhase opCode []]) := by
  simp only [handleEndSignal, hlast, Option.bind_eq_bind, Option.some_bind]
  rw [hcond]
  simp only [if_pos]
  rw [hconc]
  simp only [Option.some_bind]
  rfl

/-- C2: on a `TransactionEndSignal` whose top transaction frame has a null
return-state, `execute_state` commits the signal state's world state to
`open_states` (through the `add_world_state` hooks) iff the signal's revert
flag is false and the transaction either is not a contract creation or
produced return data; in the commit case the node's constraints are set to
the current state's constraints (from which keccak concretisation already
removed the delete set), the keccak delete set is removed from them (again,
on the aliased list), `AND(OR(C, D), V)` is appended and the `weighted`
list extended by `W`; in every top-level-end case the step yields an empty
successor list. -/
theorem c2_transaction_end_top_level
    (cfg : EngineCfg) (findK : BV → BV) (evalr : GState → EvalOutcome)
    (evalPost : String → GState → List GState) (es : EngineState)
    (g : GState) (instr : Instr) (tx : Tx) (sigGs : GState) (revert : Bool)
    (hpc : g.data.env.code.instructionList.get? g.data.mstate.pc = some instr)
    (hpre : (cfg.preHooks instr.opcode).any (fun hk => hk g) = false)
    (hev : evalr g = EvalOutcome.endSignal sigGs revert)
    (hlast : sigGs.txStack.getLast? = some (tx, none)) :
    (((!tx.isCreation || tx.returnData.isSome) && !revert) = false →
      executeState cfg findK evalr evalPost es g =
        some ([], some instr.opcode, es,
          [TraceEv.postHookPhase instr.opcode []])) ∧
    (∀ (c d v : Term) (w : List Term) (km' : KM) (rng' : List Nat)
        (g' sig' : GState),
      ((!tx.isCreation || tx.returnData.isSome) && !revert) = true →
      concretizeKeccak findK es.km es.rng g sigGs =
        some (c, d, v, w, km', rng', g', sig') →
      sigGs.data.node = g.data.node →
      ∀ n0, alistGet es.heap g.data.node = some n0 →
      ∃ es2,
        executeState cfg findK evalr evalPost es g =
          some ([], some instr.opcode, es2,
            [TraceEv.addWorldPhase sigGs.uid,
             TraceEv.postHookPhase instr.opcode []]) ∧
        es2.openStates = addWorldState cfg.awsHooks es.openStates
          (sig'.withWorld { sig'.data.world with
            node := some g'.data.node }) ∧
        es2.km = km' ∧ es2.rng = rng' ∧
        alistGet es2.heap g.data.node = some { n0 with constraints :=
          { asList := deleteConstraintsFrom km'.deleteConstraints
              g'.data.mstate.constraints.asList ++
              [Term.and (Term.or c d) v]
            weighted := g'.data.mstate.constraints.weighted ++ w } } ∧
        g'.data.mstate.constraints.asList =
          (removeCollect es.km.deleteConstraints
            g.data.mstate.constraints.asList).1 ∧
        ((∀ hk ∈ cfg.awsHooks,
            hk (sig'.withWorld { sig'.data.world with
              node := some g'.data.node }) = false) →
          es2.openStates = es.openStates ++
            [(sig'.withWorld { sig'.data.world with
              node := some g'.data.node }).data.world]) ∧
        ((∃ hk ∈ cfg.awsHooks,
            hk (sig'.withWorld { sig'.data.world with
              node := some g'.data.node }) = true) →
          es2.openStates = es.openStates)) := by
  constructor
  · intro hcond
    rw [executeState_endSignal cfg findK evalr evalPost es g instr sigGs
        revert hpc hpre hev,
      handleEndSignal_top_nocommit cfg findK evalPost es g instr.opcode sigGs
        revert tx hlast hcond]
  · intro c d v w km' rng' g' sig' hcond hconc hnode n0 hheap
    obtain ⟨acc, hacc, hkmacc, hrngacc, hdel, hc, hd, hv, hw, hglist, hgw,
      hgnode, hgenv, hguid, hgtx, hsnode, hsuid, hstx, hsacc, hswnode, hsms⟩ :=
      concretizeKeccak_spec findK es.km es.rng g sigGs c d v w km' rng'
        g' sig' hconc
    refine ⟨{ es with
        km := km', rng := rng'
        heap := alistModify (alistModify (alistModify (alistModify es.heap
            g'.data.node
            (fun n => { n with constraints := g'.data.mstate.constraints }))
            (sig'.withWorld { sig'.data.world with
              node := some g'.data.node }).data.node
            (fun n => { n with constraints := { n.constraints with
              asList := deleteConstraintsFrom km'.deleteConstraints
                n.constraints.asList } }))
            g'.data.node
            (fun n => { n with constraints := { n.constraints with
              asList := n.constraints.asList ++
                [Term.and (Term.or c d) v] } }))
            g'.data.node
            (fun n => { n with constraints := { n.constraints with
              weighted := n.constraints.weighted ++ w } })
        openStates := addWorldState cfg.awsHooks es.openStates
          (sig'.withWorld { sig'.data.world with
            node := some g'.data.node }) },
      ?_, rfl, rfl, rfl, ?_, ?_, ?_, ?_⟩
    · rw [executeState_endSignal cfg findK evalr evalPost es g instr sigGs
          revert hpc hpre hev,
        handleEndSignal_top_commit cfg findK evalPost es g instr.opcode sigGs
          revert tx c d v w km' rng' g' sig' hlast hcond hconc]
      have huid : (sig'.withWorld { sig'.data.world with
          node := some g'.data.node }).uid = sigGs.uid := hsuid
      rw [huid]
    · have hk2 : (sig'.withWorld { sig'.data.world with
          node := some g'.data.node }).data.node = g.data.node := by
        have : sig'.data.node = g.data.node := hsnode.trans hnode
        exact this
      rw [hk2, hgnode]
      simp only [alistGet_alistModify_self, hheap, Option.map_some]
      rfl
    · rw [hglist, ← hkmacc, hdel]
    · intro hno
      simp only [addWorldState, awsRun_no_veto _ _ hno]
      simp
    · intro hex
      simp only [addWorldState, awsRun_veto _ _ hex]
      simp

/-- The guard disjunction produced by `concretize_keccak` for the fixture
state (no topological keys, so the actor tuples are untouched). -/
def wC : Term :=
  Term.or (Term.eq (BV.sym "sender" 256) (BV.val ACTOR2 256))
    (Term.or (Term.eq (BV.sym "sender" 256) (BV.val ACTOR1 256))
      (Term.or (Term.eq (BV.sym "sender" 256) (BV.val ACTOR0 256)) Term.ff))

/-- C2 witness: a concrete top-level end signal with the commit condition
true goes through the commit path: node constraints rewritten and the world
state added to `open_states`. -/
theorem c2_witness :
    ∃ es2,
      executeState wCfg id (fun _ => EvalOutcome.endSignal (wState 7) false)
          (fun _ _ => []) wES (wState 0) =
        some ([], some "STOP", es2,
          [TraceEv.addWorldPhase (wState 7).uid,
           TraceEv.postHookPhase "STOP" []]) ∧
      es2.openStates = addWorldState wCfg.awsHooks wES.openStates
        ((wState 7).withWorld { (wState 7).data.world with
          node := some (wState 0).data.node }) ∧
      es2.km = wKM ∧ es2.rng = [] ∧
      alistGet es2.heap (wState 0).data.node = some { wNode with constraints :=
        { asList := deleteConstraintsFrom wKM.deleteConstraints
            (wState 0).data.mstate.constraints.asList ++
            [Term.and (Term.or wC Term.ff) (Term.and Term.tt Term.tt)]
          weighted := (wState 0).data.mstate.constraints.weighted ++ [] } } ∧
      (wState 0).data.mstate.constraints.asList =
        (removeCollect wES.km.deleteConstraints
          (wState 0).data.mstate.constraints.asList).1 ∧
      ((∀ hk ∈ wCfg.awsHooks,
          hk ((wState 7).withWorld { (wState 7).data.world with
            node := some (wState 0).data.node }) = false) →
        es2.openStates = wES.openStates ++
          [((wState 7).withWorld { (wState 7).data.world with
            node := some (wState 0).data.node }).data.world]) ∧
      ((∃ hk ∈ wCfg.awsHooks,
          hk ((wState 7).withWorld { (wState 7).data.world with
            node := some (wState 0).data.node }) = true) →
        es2.openStates = wES.openStates) :=
  (c2_transaction_end_top_level wCfg id
      (fun _ => EvalOutcome.endSignal (wState 7) false) (fun _ _ => [])
      wES (wState 0) { opcode := "STOP", address := 0 } wTx (wState 7) false
      (by rfl) (by rfl) rfl (by rfl)).2
    wC Term.ff (Term.and Term.tt Term.tt) [] wKM [] (wState 0) (wState 7)
    (by rfl) (by rfl) (by rfl) wNode (by rfl)

/-! ## Claim C9 -/

/-- Shape of a per-actor guard term built by `concretize_keccak`: the
conjunction chain rooted at `sender == actor`, extended left-nested by one
bit-vector equality per concretised key. -/
inductive IsActorGuard (sender actor : BV) : Term → Prop where
  | base : IsActorGuard sender actor (Term.eq sender actor)
  | step (t : Term) (k v : BV) (h : IsActorGuard sender actor t) :
      IsActorGuard sender actor (Term.and t (Term.eq k v))

/-- Invariant of the key-loop tuples: always exactly the three fixed actors,
in roster order, each carrying an actor-guard term for its address. -/
def TuplesInv (sender : BV) (l : List (Term × BV)) : Prop :=
  ∃ t0 t1 t2,
    l = [(t0, BV.val ACTOR0 256), (t1, BV.val ACTOR1 256),
         (t2, BV.val ACTOR2 256)] ∧
    IsActorGuard sender (BV.val ACTOR0 256) t0 ∧
    IsActorGuard sender (BV.val ACTOR1 256) t1 ∧
    IsActorGuard sender (BV.val ACTOR2 256) t2

theorem indepActorStep_snd (findK : BV → BV) (key : BV) (st : IndepSt)
    (t : Term × BV) :
    ∃ v, (indepActorStep findK key st t).2 =
      (Term.and t.1 (Term.eq key v), t.2) := by
  unfold indepActorStep
  by_cases h : key.width = 256
  · simp only [h, if_true]
    exact ⟨_, rfl⟩
  · simp only [h, if_false]
    exact ⟨_, rfl⟩

theorem indepFold_snd (findK : BV → BV) (key : BV) :
    ∀ (l : List (Term × BV)) (st : IndepSt) (out : List (Term × BV)),
      ∃ l', (l.foldl (fun (p : IndepSt × List (Term × BV)) t =>
          let r := indepActorStep findK key p.1 t
          (r.1, p.2 ++ [r.2])) (st, out)).2 = out ++ l' ∧
        List.Forall₂ (fun t t' => t'.2 = t.2 ∧
          ∃ v, t'.1 = Term.and t.1 (Term.eq key v)) l l' := by
  intro l
  induction l with
  | nil => intro st out; exact ⟨[], by simp, List.Forall₂.nil⟩
  | cons t rest ih =>
    intro st out
    simp only [List.foldl_cons]
    obtain ⟨l', h1, h2⟩ := ih (indepActorStep findK key st t).1
      (out ++ [(indepActorStep findK key st t).2])
    obtain ⟨v, hv⟩ := indepActorStep_snd findK key st t
    refine ⟨(indepActorStep findK key st t).2 :: l',
      h1.trans (by simp), List.Forall₂.cons ⟨by rw [hv], v, by rw [hv]⟩ h2⟩

theorem derivActorStep_snd (findK : BV → BV) (key parent : BV) (st : DerivSt)
    (t : Term × BV) (st' : DerivSt) (t' : Term × BV)
    (h : derivActorStep findK key parent st t = some (st', t')) :
    t' = t ∨ ∃ v, t' = (Term.and t.1 (Term.eq key v), t.2) := by
  unfold derivActorStep at h
  by_cases hw : parent.width = 512
  · rw [if_pos hw] at h
    simp only [] at h
    split at h
    · rw [Option.some.injEq, Prod.mk.injEq] at h
      exact Or.inr ⟨_, h.2.symm⟩
    · exact absurd h (by simp)
  · rw [if_neg hw] at h
    split at h
    · rw [Option.some.injEq, Prod.mk.injEq] at h
      exact Or.inr ⟨_, h.2.symm⟩
    · rw [Option.some.injEq, Prod.mk.injEq] at h
      exact Or.inl h.2.symm

theorem derivFold_snd (findK : BV → BV) (key parent : BV) :
    ∀ (l : List (Term × BV)) (st : DerivSt) (out : List (Term × BV))
      (st' : DerivSt) (out' : List (Term × BV)),
      l.foldlM (fun (p : DerivSt × List (Term × BV)) t => do
          let r ← derivActorStep findK key parent p.1 t
          pure (r.1, p.2 ++ [r.2])) (st, out) = some (st', out') →
      ∃ l', out' = out ++ l' ∧
        List.Forall₂ (fun t t' => t' = t ∨
          ∃ v, t' = (Term.and t.1 (Term.eq key v), t.2)) l l' := by
  intro l
  induction l with
  | nil =>
    intro st out st' out' h
    simp only [List.foldlM_nil, Option.pure_def, Option.some.injEq,
      Prod.mk.injEq] at h
    exact ⟨[], by rw [← h.2]; simp, List.Forall₂.nil⟩
  | cons t rest ih =>
    intro st out st' out' h
    simp only [List.foldlM_cons, Option.bind_eq_bind, bind, Option.bind,
      Option.pure_def] at h
    cases hd : derivActorStep findK key parent st t with
    | none =>
      rw [hd] at h
      exact Option.noConfusion h
    | some r =>
      rw [hd] at h
      obtain ⟨l', hout, hrel⟩ := ih r.1 (out ++ [r.2]) st' out' h
      refine ⟨r.2 :: l', by rw [hout]; simp, List.Forall₂.cons ?_ hrel⟩
      exact derivActorStep_snd findK key parent st t r.1 r.2 (by rw [hd])

theorem forall2_tuplesInv (sender : BV) (key : BV)
    (l l' : List (Term × BV))
    (hrel : List.Forall₂ (fun t t' => t' = t ∨
      ∃ v, t' = (Term.and t.1 (Term.eq key v), t.2)) l l')
    (hinv : TuplesInv sender l) : TuplesInv sender l' := by
  obtain ⟨t0, t1, t2, hl, h0, h1, h2⟩ := hinv
  subst hl
  cases hrel with
  | cons hx0 hrest0 =>
  cases hrest0 with
  | cons hx1 hrest1 =>
  cases hrest1 with
  | cons hx2 hrest2 =>
  cases hrest2
  rename_i b0 b1 b2
  have g0 : IsActorGuard sender (BV.val ACTOR0 256) b0.1 ∧
      b0.2 = BV.val ACTOR0 256 := by
    rcases hx0 with h | ⟨v, h⟩ <;> rw [h] <;>
      exact ⟨by first | exact h0 | exact IsActorGuard.step t0 key v h0, rfl⟩
  have g1 : IsActorGuard sender (BV.val ACTOR1 256) b1.1 ∧
      b1.2 = BV.val ACTOR1 256 := by
    rcases hx1 with h | ⟨v, h⟩ <;> rw [h] <;>
      exact ⟨by first | exact h1 | exact IsActorGuard.step t1 key v h1, rfl⟩
  have g2 : IsActorGuard sender (BV.val ACTOR2 256) b2.1 ∧
      b2.2 = BV.val ACTOR2 256 := by
    rcases hx2 with h | ⟨v, h⟩ <;> rw [h] <;>
      exact ⟨by first | exact h2 | exact IsActorGuard.step t2 key v h2, rfl⟩
  exact ⟨b0.1, b1.1, b2.1,
    by rw [← g0.2, ← g1.2, ← g2.2], g0.1, g1.1, g2.1⟩

theorem perKey_tuplesInv (findK : BV → BV) (sender : BV) (acc acc' : CKAcc)
    (key : BV) (h : perKey findK acc key = some acc')
    (hinv : TuplesInv sender acc.tuples) : TuplesInv sender acc'.tuples := by
  unfold perKey at h
  by_cases ht : key.valueTruthy
  · rw [if_pos ht, Option.some.injEq] at h
    rw [← h]
    exact hinv
  · rw [if_neg ht] at h
    simp only [] at h
    split at h
    · rw [Option.some.injEq] at h
      obtain ⟨l', hfold, hrel⟩ := indepFold_snd findK key acc.tuples
        { stored := acc.stored, varCond := Term.ff, hashCond := acc.hashCond
          sigTopo := acc.sigTopo, km := acc.km, rng := acc.rng } []
      have htup : acc'.tuples = [] ++ l' := by
        rw [← h]
        exact hfold
      rw [htup, List.nil_append]
      refine forall2_tuplesInv sender key acc.tuples l' ?_ hinv
      refine hrel.imp ?_
      intro a b hab
      exact Or.inr ⟨hab.2.choose, Prod.ext hab.2.choose_spec hab.1⟩
    · split at h
      · exact absurd h (by simp)
      · rw [Option.some.injEq] at h
        rename_i st tuples' heq
        obtain ⟨l', hout, hrel⟩ :=
          derivFold_snd findK key _ acc.tuples _ [] st tuples' heq
        have htup : acc'.tuples = tuples' := by rw [← h]
        rw [htup, hout, List.nil_append]
        exact forall2_tuplesInv sender key acc.tuples l' hrel hinv

theorem topoFold_tuplesInv (findK : BV → BV) (sender : BV) (keys : List BV) :
    ∀ acc acc', keys.foldlM (perKey findK) acc = some acc' →
      TuplesInv sender acc.tuples → TuplesInv sender acc'.tuples := by
  induction keys with
  | nil =>
    intro acc acc' h hinv
    simp only [List.foldlM_nil, Option.pure_def, Option.some.injEq] at h
    rw [← h]
    exact hinv
  | cons k rest ih =>
    intro acc acc' h hinv
    simp only [List.foldlM_cons] at h
    cases h1 : perKey findK acc k with
    | none =>
      rw [h1] at h
      exact Option.noConfusion h
    | some a1 =>
      rw [h1] at h
      exact ih a1 acc' h (perKey_tuplesInv findK sender acc a1 k h1 hinv)

theorem perKey_truthy (findK : BV → BV) (acc : CKAcc) (key : BV)
    (ht : key.valueTruthy = true) : perKey findK acc key = some acc := by
  unfold perKey
  rw [if_pos ht]

theorem topoFold_truthy (findK : BV → BV) (keys : List BV)
    (hk : ∀ k ∈ keys, k.valueTruthy = true) (acc : CKAcc) :
    keys.foldlM (perKey findK) acc = some acc := by
  induction keys with
  | nil => rfl
  | cons k rest ih =>
    simp only [List.foldlM_cons,
      perKey_truthy findK acc k (hk k (List.mem_cons_self k rest)), Option.some_bind]
    exact ih (fun k' hk' => hk k' (List.mem_cons_of_mem k hk'))

theorem removeCollect_no_member (ds cs : List Term)
    (h : ∀ t ∈ ds, t ∉ cs) :
    removeCollect ds cs = (cs, Term.tt, false) := by
  unfold removeCollect
  suffices hs : ∀ (d0 : Term) (f0 : Bool),
      ds.foldl (fun acc c => match acc with
        | (cur, d, flag) =>
          if c ∈ cur then (cur.erase c, Term.and c d, true)
          else (cur, d, flag)) (cs, d0, f0) = (cs, d0, f0) by
    exact hs Term.tt false
  induction ds with
  | nil => intro d0 f0; rfl
  | cons c rest ih =>
    intro d0 f0
    simp only [List.foldl_cons]
    rw [if_neg (h c (List.mem_cons_self c rest))]
    exact ih (fun t ht => h t (List.mem_cons_of_mem c ht)) d0 f0

/-- C9: every successful `concretize_keccak` call returns a guard `C` that is
the disjunction, over the three fixed actor addresses in roster order, of
and-chains rooted at `sender == actor` extended by per-key equalities; and
when every topological key is already concrete (truthy `.value`) and the
delete set shares no member with the state's constraints, `D` is false and
`V` is `And(True, True)`, so the appended `AND(OR(C, D), V)` holds exactly
when the environment's sender evaluates to one of the three actor
addresses. -/
theorem c9_keccak_guard_constrains_sender
    (findK : BV → BV) (km : KM) (rng : List Nat) (g gsig : GState)
    (c d v : Term) (w : List Term) (km' : KM) (rng' : List Nat)
    (g' gsig' : GState)
    (h : concretizeKeccak findK km rng g gsig =
      some (c, d, v, w, km', rng', g', gsig')) :
    (∃ t0 t1 t2,
      c = simplifyT (Term.or t2 (Term.or t1 (Term.or t0 Term.ff))) ∧
      IsActorGuard g.data.env.sender (BV.val ACTOR0 256) t0 ∧
      IsActorGuard g.data.env.sender (BV.val ACTOR1 256) t1 ∧
      IsActorGuard g.data.env.sender (BV.val ACTOR2 256) t2) ∧
    ((∀ k ∈ g.topoKeys, k.valueTruthy = true) →
      (∀ t ∈ km.deleteConstraints, t ∉ g.data.mstate.constraints.asList) →
      d = Term.ff ∧ v = Term.and Term.tt Term.tt ∧
      ∀ (σB : String → Bool) (σ : String → Nat) (I : String → Nat → Nat),
        Term.eval σB σ I (Term.and (Term.or c d) v) = true ↔
          BV.eval σ I g.data.env.sender ∈
            ACTOR_ADDRESSES.map (BV.eval σ I)) := by
  obtain ⟨acc, hacc, hkm, hrng, hdelc, hc, hd, hv, hw, hglist, hgw, hgnode,
    hgenv, hguid, hgtx, hsnode, hsuid, hstx, hsacc, hswnode, hsms⟩ :=
    concretizeKeccak_spec findK km rng g gsig c d v w km' rng' g' gsig' h
  have hinv0 : TuplesInv g.data.env.sender
      (ACTOR_ADDRESSES.map
        (fun actor => (Term.eq g.data.env.sender actor, actor))) :=
    ⟨Term.eq g.data.env.sender (BV.val ACTOR0 256),
     Term.eq g.data.env.sender (BV.val ACTOR1 256),
     Term.eq g.data.env.sender (BV.val ACTOR2 256), rfl,
     IsActorGuard.base, IsActorGuard.base, IsActorGuard.base⟩
  have hinv := topoFold_tuplesInv findK g.data.env.sender g.topoKeys _ acc
    hacc hinv0
  obtain ⟨t0, t1, t2, hl, h0, h1, h2⟩ := hinv
  refine ⟨⟨t0, t1, t2, by rw [hc, hl]; rfl, h0, h1, h2⟩, ?_⟩
  intro hkeys hdel
  have hacceq := Option.some.inj
    (hacc.symm.trans (topoFold_truthy findK g.topoKeys hkeys _))
  have hrc : removeCollect acc.km.deleteConstraints
      g.data.mstate.constraints.asList =
      (g.data.mstate.constraints.asList, Term.tt, false) := by
    rw [hacceq]
    exact removeCollect_no_member km.deleteConstraints _ hdel
  have hdeq : d = Term.ff := by rw [hd, hrc]; rfl
  have hveq : v = Term.and Term.tt Term.tt := by rw [hv, hacceq]
  have hceq : c = Term.or (Term.eq g.data.env.sender (BV.val ACTOR2 256))
      (Term.or (Term.eq g.data.env.sender (BV.val ACTOR1 256))
        (Term.or (Term.eq g.data.env.sender (BV.val ACTOR0 256)) Term.ff)) := by
    rw [hc, hacceq]
    rfl
  refine ⟨hdeq, hveq, ?_⟩
  intro σB σ I
  rw [hceq, hdeq, hveq]
  simp only [Term.eval, BV.eval, ACTOR_ADDRESSES, List.map_cons, List.map_nil,
    List.mem_cons, List.not_mem_nil, or_false, Bool.or_eq_true,
    Bool.and_eq_true, Bool.or_false, Bool.and_true, beq_iff_eq]
  tauto

/-- C9 witness: on a concrete call with no topological keys and an empty
delete set, the guard shape and the sender-roster equivalence hold for a
concrete assignment. -/
theorem c9_witness :
    (∃ t0 t1 t2,
      wC = simplifyT (Term.or t2 (Term.or t1 (Term.or t0 Term.ff))) ∧
      IsActorGuard (wState 0).data.env.sender (BV.val ACTOR0 256) t0 ∧
      IsActorGuard (wState 0).data.env.sender (BV.val ACTOR1 256) t1 ∧
      IsActorGuard (wState 0).data.env.sender (BV.val ACTOR2 256) t2) ∧
    (Term.eval (fun _ => false) (fun _ => ACTOR1) (fun _ n => n)
        (Term.and (Term.or wC Term.ff) (Term.and Term.tt Term.tt)) = true ↔
      BV.eval (fun _ => ACTOR1) (fun _ n => n) (wState 0).data.env.sender ∈
        ACTOR_ADDRESSES.map (BV.eval (fun _ => ACTOR1) (fun _ n => n))) := by
  have H := c9_keccak_guard_constrains_sender id wKM [] (wState 0) (wState 7)
    wC Term.ff (Term.and Term.tt Term.tt) [] wKM [] (wState 0) (wState 7)
    (by rfl)
  refine ⟨H.1, ?_⟩
  have H2 := H.2 (fun k hk => absurd hk (List.not_mem_nil k))
    (fun t ht => absurd ht (List.not_mem_nil t))
  exact H2.2.2 (fun _ => false) (fun _ => ACTOR1) (fun _ n => n)
